/-
  Verification of the Triton compiler frontend (compiler.py).

  This file gives a shallow embedding, in Lean 4, of the parts of the
  frontend that the verified properties speak about:

  * the type model and `mangle_ty` / `mangle_fn` name mangling,
  * the merge phase of `CodeGenerator.visit_then_else_blocks`,
  * the scope machinery (`_define_name_lookup`, `set_value`,
    `visit_AnnAssign`, `visit_Assign`),
  * the for-loop bound normalization of `CodeGenerator.visit_For`,
  * the block bookkeeping of `visit_While` / `visit_For` dry runs,
  * `CompilationError._format_message`,
  * assert elision (`visit_Assert`, the `device_assert` path of
    `visit_Call`),
  * `CacheManager` and the stage loop of `compile`.

  Python dicts are embedded as insertion-ordered association lists; the
  machine integers involved (timestamps, handles) are embedded as `Nat`,
  and the values are small enough that no overflow behaviour is involved.
-/
import Mathlib

/-! ## Type model (`triton.language` dtypes, as consumed by `mangle_ty`) -/

/-- Signedness of an integer dtype (`dtype.SIGNEDNESS`). -/
inductive Signedness where
  | signed
  | unsigned
deriving DecidableEq, Repr

/-- The semantic type descriptors the code generator compares and mangles:
pointers, sized integers, floats, blocks with a shape, and void. -/
inductive Ty where
  | ptr (elem : Ty)
  | int (s : Signedness) (width : Nat)
  | fp8
  | fp16
  | bf16
  | fp32
  | fp64
  | block (scalar : Ty) (shape : List Nat)
  | void
deriving DecidableEq, Repr

/-- A `triton.language.tensor`: an opaque IR handle plus a semantic type. -/
structure TLTensor where
  handle : Nat
  type : Ty
deriving DecidableEq, Repr

/-! ## Python dict embedding -/

/-- Python dict assignment `d[k] = v`: replace in place if the key exists
(keeping its position), otherwise append. -/
def dictSet {α : Type} (l : List (String × α)) (k : String) (v : α) :
    List (String × α) :=
  match l with
  | [] => [(k, v)]
  | (k', v') :: rest => if k' = k then (k, v) :: rest else (k', v') :: dictSet rest k v

/-- The keys of an association list are pairwise distinct (dict invariant). -/
def NodupKeys {α : Type} (l : List (String × α)) : Prop :=
  (l.map Prod.fst).Nodup

/-! ## `visit_For`: negative-step normalization (compiler.py 693-720, 774-781) -/

/-- Bounds handed to `create_for_op`, plus the `negative_step` flag. -/
structure ForBounds where
  lb : Int
  ub : Int
  step : Int
  negativeStep : Bool
deriving DecidableEq, Repr

/-- The step-normalization in `visit_For`: a compile-time-constant negative
step is negated and the bounds are swapped (`lb, ub = ub, lb`). -/
def normalizeForRange (lb ub step : Int) (stepIsConstexpr : Bool) : ForBounds :=
  if stepIsConstexpr = true ∧ step < 0 then
    { lb := ub, ub := lb, step := -step, negativeStep := true }
  else
    { lb := lb, ub := ub, step := step, negativeStep := false }

/-- Number of iterations of the counted loop `for (i = lb; i < ub; i += step)`
with positive step (the `scf.for` runtime semantics). -/
def rangeCount (lb ub step : Int) : Nat :=
  if step ≤ 0 then 0
  else ((ub - lb).toNat + (step.toNat - 1)) / step.toNat

/-- The raw induction values the counted-loop primitive produces. -/
def rangeValues (lb ub step : Int) : List Int :=
  (List.range (rangeCount lb ub step)).map (fun k => lb + step * (k : Int))

/-- The induction value re-bound for the body (compiler.py 776-781):
with `negative_step` it is `ub - raw + lb` over the swapped bounds. -/
def visibleIV (b : ForBounds) (raw : Int) : Int :=
  if b.negativeStep then b.ub - raw + b.lb else raw

/-- The sequence of induction values the loop body observes. -/
def observedIVs (lb ub step : Int) (stepIsConstexpr : Bool) : List Int :=
  let b := normalizeForRange lb ub step stepIsConstexpr
  (rangeValues b.lb b.ub b.step).map (visibleIV b)

/-! ## `CompilationError._format_message` (compiler.py 963-997) -/

/-- `CompilationError.source_line_count_max_in_message`. -/
def source_line_count_max_in_message : Nat := 12

/-- The final excerpt line: `' ' * node.col_offset + '^'`. -/
def caretLine (col : Nat) : String :=
  String.mk (List.replicate col ' ') ++ "^"

/-- Python `l[-n:]`: the last `min n l.length` elements. -/
def lastN {α : Type} (n : Nat) (l : List α) : List α :=
  l.drop (l.length - n)

/-- Helper for `splitLines`: accumulate the current line (reversed). -/
def splitLinesAux (cur : List Char) : List Char → List String
  | [] => [String.mk cur.reverse]
  | c :: rest =>
    if c.toNat = 10 then String.mk cur.reverse :: splitLinesAux [] rest
    else splitLinesAux (c :: cur) rest

/-- Python `src.split('\x0a')`: split on the newline character (the empty
string yields one empty line, like the source's `str.split`). -/
def splitLines (s : String) : List String := splitLinesAux [] s.data

/-- `CompilationError._format_message`: excerpt = last 12 of the first
`lineno` source lines, a caret line appended, prefixed with the location,
the optional error message appended. -/
def format_message (src : Option String) (lineno col : Nat)
    (errMsg : Option String) : String :=
  let source_excerpt :=
    match src with
    | none => " <source unavailable>"
    | some s =>
      let ls := lastN source_line_count_max_in_message ((splitLines s).take lineno)
      if ls.isEmpty then " <source empty>"
      else String.intercalate "\n" (ls ++ [caretLine col])
  let message := "at " ++ toString lineno ++ ":" ++ toString col ++ ":" ++ source_excerpt
  match errMsg with
  | some m => message ++ "\n" ++ m
  | none => message

/-! ## Python-level values (`triton.language.tensor` / `constexpr` / scalars) -/

/-- The values the generator's scopes hold, as far as the scope machinery
inspects them: tensors, `constexpr` wrappers, plain integers, dtypes. -/
inductive PyVal where
  | tensor (t : TLTensor)
  | constexpr (v : PyVal)
  | pyint (n : Int)
  | dtypeVal (d : Ty)
deriving DecidableEq, Repr

/-- `_is_triton_tensor` (compiler.py 100-101). -/
def _is_triton_tensor : PyVal → Bool
  | .tensor _ => true
  | _ => false

/-- `_is_constexpr` (compiler.py 104-105). -/
def _is_constexpr : PyVal → Bool
  | .constexpr _ => true
  | _ => false

/-- `_unwrap_if_constexpr` (compiler.py 108-109). -/
def _unwrap_if_constexpr : PyVal → PyVal
  | .constexpr v => v
  | v => v

/-- The dtype `_to_tensor` gives a value (plain ints become `i32`). -/
def tyOfVal : PyVal → Ty
  | .tensor t => t.type
  | .constexpr v => tyOfVal v
  | .pyint _ => .int .signed 32
  | .dtypeVal _ => .void

/-- `triton.language.core._to_tensor`: tensors pass through, anything else
becomes an IR constant tensor with a fresh handle. -/
def _to_tensor (fresh : Nat) : PyVal → PyVal
  | .tensor t => .tensor t
  | v => .tensor ⟨fresh, tyOfVal v⟩

/-- `native_nontensor_types = (triton.language.dtype,)` (compiler.py 364). -/
def isNativeNontensor : PyVal → Bool
  | .dtypeVal _ => true
  | _ => false

/-! ## Scope & assignment (compiler.py 158-197, 335-371) -/

/-- The generator's per-function scope: `lscope` and `local_defs`. -/
structure GenScope where
  lscope : List (String × PyVal)
  localDefs : List (String × PyVal)
deriving DecidableEq, Repr

/-- `CodeGenerator.set_value` (compiler.py 189-197). -/
def set_value (st : GenScope) (name : String) (v : PyVal) : GenScope :=
  { lscope := dictSet st.lscope name v, localDefs := dictSet st.localDefs name v }

/-- The single-target, single-value case of `visit_Assign`
(compiler.py 352-371): unwrap a constexpr, convert non-tensor non-dtype
values to tensors, and store — with no check against the prior binding. -/
def visit_Assign1 (st : GenScope) (fresh : Nat) (name : String) (value : PyVal) :
    GenScope :=
  let v := _unwrap_if_constexpr value
  let v := if _is_triton_tensor v || isNativeNontensor v then v else _to_tensor fresh v
  set_value st name v

/-- The constexpr branch of `visit_AnnAssign` (compiler.py 335-350): a
constexpr-annotated target that is already bound in the local scope is a
definition error; otherwise the (wrapped) value is bound in `lscope`. -/
def visit_AnnAssign_constexpr (st : GenScope) (target : String) (value : PyVal) :
    Except String GenScope :=
  if (List.lookup target st.lscope).isSome then
    .error (target ++ " is already defined. constexpr cannot be reassigned.")
  else
    let v := if _is_constexpr value then value else .constexpr value
    .ok { st with lscope := dictSet st.lscope target v }

/-! ## Name resolution (`_define_name_lookup`, compiler.py 158-187) -/

/-- The state `name_lookup` reads and writes: the local scope, the local
definitions, the recorded global uses, the enclosing module namespace and
the built-in namespace. -/
structure LookupState where
  lscope : List (String × PyVal)
  localDefs : List (String × PyVal)
  globalUses : List (String × PyVal)
  gscope : List (String × PyVal)
  builtins : List (String × PyVal)
deriving DecidableEq, Repr

/-- `local_lookup` (compiler.py 170-174): consult `lscope`; a hit on a name
that is not locally defined is recorded in `global_uses`. -/
def local_lookup (st : LookupState) (name : String) : Option PyVal × LookupState :=
  match List.lookup name st.lscope with
  | some v =>
    (some v,
      if (List.lookup name st.localDefs).isSome then st
      else { st with globalUses := dictSet st.globalUses name v })
  | none => (none, st)

/-- `name_lookup` (compiler.py 178-187): try the local scope, then the
module namespace, then the built-in namespace, returning the first binding
found; failing all three raises `NameError`. -/
def name_lookup (st : LookupState) (name : String) :
    Except String (PyVal × LookupState) :=
  match local_lookup st name with
  | (some v, st1) => .ok (v, st1)
  | (none, _) =>
    match List.lookup name st.gscope with
    | some v => .ok (v, st)
    | none =>
      match List.lookup name st.builtins with
      | some v => .ok (v, st)
      | none => .error (name ++ " is not defined")

/-! ## If/else merge (`visit_then_else_blocks`, compiler.py 418-470) -/

/-- Live-in / arm definitions: name to tensor, in insertion order. -/
abbrev Defs := List (String × TLTensor)

inductive Arm where
  | thenArm
  | elseArm
deriving DecidableEq, Repr

/-- The two fatal type disagreements of `visit_then_else_blocks`: a live-in
redefined at another type (compiler.py 441-445), and a name defined in both
arms at differing types (compiler.py 458-465).  Both carry the offending
name and the two conflicting types, as the assertion messages do. -/
inductive MergeErr where
  | liveinMismatch (name : String) (liveinTy : Ty) (arm : Arm) (redefTy : Ty)
  | armMismatch (name : String) (thenTy elseTy : Ty)
deriving DecidableEq, Repr

/-- The per-arm type check (compiler.py 441-445). -/
def checkRedef (name : String) (liveinTy : Ty) (arm : Arm) (defs : Defs) :
    Except MergeErr Unit :=
  match List.lookup name defs with
  | some d =>
    if d.type = liveinTy then .ok ()
    else .error (.liveinMismatch name liveinTy arm d.type)
  | none => .ok ()

/-- The live-in loop of `visit_then_else_blocks` (compiler.py 439-455):
iterate the live-ins in order; type-check any redefinition against the
live-in type (then arm first); a name redefined in at least one arm joins
the merge list; the arm that did not redefine it is filled with its live-in
value.  The source keeps `names` and `ret_types` as two lists appended in
lockstep; they are fused into one list of pairs here. -/
def mergeLiveins :
    List (String × TLTensor) → Defs → Defs → List (String × Ty) →
    Except MergeErr (Defs × Defs × List (String × Ty))
  | [], thenDefs, elseDefs, pairs => .ok (thenDefs, elseDefs, pairs)
  | (name, lv) :: rest, thenDefs, elseDefs, pairs =>
    match checkRedef name lv.type .thenArm thenDefs with
    | .error e => .error e
    | .ok _ =>
      match checkRedef name lv.type .elseArm elseDefs with
      | .error e => .error e
      | .ok _ =>
        -- the four membership cases of compiler.py 446-455: the merge type
        -- is the then-arm type when present (else the else-arm type), and
        -- the arm missing the definition is filled with the live-in value
        match List.lookup name thenDefs, List.lookup name elseDefs with
        | some d, some _ =>
          mergeLiveins rest thenDefs elseDefs (pairs ++ [(name, d.type)])
        | some d, none =>
          mergeLiveins rest thenDefs (elseDefs ++ [(name, lv)])
            (pairs ++ [(name, d.type)])
        | none, some e =>
          mergeLiveins rest (thenDefs ++ [(name, lv)]) elseDefs
            (pairs ++ [(name, e.type)])
        | none, none => mergeLiveins rest thenDefs elseDefs pairs

/-- The second merge loop (compiler.py 458-468): a name defined in both
arms that is not already a merge value must agree in type across the arms.
(The source iterates a Python set intersection, whose order is unspecified;
the iteration here fixes then-arm insertion order, which only affects which
of several simultaneous conflicts is reported first.) -/
def mergeCommon :
    List (String × TLTensor) → Defs → List (String × Ty) →
    Except MergeErr (List (String × Ty))
  | [], _, pairs => .ok pairs
  | (name, t) :: rest, elseDefs, pairs =>
    match List.lookup name elseDefs with
    | none => mergeCommon rest elseDefs pairs
    | some e =>
      if (pairs.map Prod.fst).contains name then mergeCommon rest elseDefs pairs
      else if t.type = e.type then mergeCommon rest elseDefs (pairs ++ [(name, t.type)])
      else .error (.armMismatch name t.type e.type)

/-- The merge phase of `visit_then_else_blocks` (compiler.py 434-470). -/
def visit_then_else_blocks_merge (liveins thenDefs elseDefs : Defs) :
    Except MergeErr (Defs × Defs × List (String × Ty)) :=
  match mergeLiveins liveins thenDefs elseDefs [] with
  | .error e => .error e
  | .ok (thenD, elseD, pairs) =>
    match mergeCommon thenD elseD pairs with
    | .error e => .error e
    | .ok pairs1 => .ok (thenD, elseD, pairs1)

/-- After the conditional, both lowerings re-bind each merge name to a
fresh value of the agreed type (compiler.py 497-500 and 525-528); `base`
numbers the merge-block arguments (resp. if-op results). -/
def applyMergeScope : Defs → List (String × Ty) → Nat → Defs
  | sc, [], _ => sc
  | sc, (n, ty) :: rest, i => applyMergeScope (dictSet sc n ⟨i, ty⟩) rest (i + 1)

/-! ## Call monomorphization (`mangle_fn`, `visit_Call`; compiler.py 90-97, 823-859) -/

/-- `mangle_ty` (compiler.py 64-87). -/
def mangle_ty : Ty → String
  | .ptr e => "P" ++ mangle_ty e
  | .int .signed w => "i" ++ toString w
  | .int .unsigned w => "u" ++ toString w
  | .fp8 => "fp8"
  | .fp16 => "fp16"
  | .bf16 => "bf16"
  | .fp32 => "fp32"
  | .fp64 => "fp64"
  | .block sc shape => mangle_ty sc ++ "S" ++ String.intercalate "_" (shape.map toString) ++ "S"
  | .void => "V"

/-- The apostrophe character that `mangle_fn` escapes. -/
def quoteChar : Char := Char.ofNat 39

/-- Python `str.replace` for a single-character pattern: substitute every
occurrence of the character by the replacement (both escapes performed by
`mangle_fn` have single-character patterns). -/
def replaceChar (pat : Char) (rep : List Char) : List Char → List Char
  | [] => []
  | c :: rest => (if c = pat then rep else [c]) ++ replaceChar pat rep rest

/-- `s.replace(pat, rep)` for a single-character pattern `pat`. -/
def pyReplaceChar (s : String) (pat : Char) (rep : String) : String :=
  ⟨replaceChar pat rep.data s.data⟩

/-- Insert into a list sorted by constant index. -/
def insertSorted (p : Nat × String) : List (Nat × String) → List (Nat × String)
  | [] => [p]
  | q :: rest => if p.1 ≤ q.1 then p :: q :: rest else q :: insertSorted p rest

/-- `sorted(constants)`: the constant map ordered by index (indices of a
dict are distinct, so stability is immaterial). -/
def sortByIdx : List (Nat × String) → List (Nat × String)
  | [] => []
  | p :: rest => insertSorted p (sortByIdx rest)

/-- The constant part of `mangle_fn` (compiler.py 93-95): join
`f"{i}c{repr(constants[i])}"` over the key-sorted constant map, then
escape `.` as `_d_` and the apostrophe as `_sq_`.  Constant values appear
through their `repr` strings. -/
def mangleConstants (constants : List (Nat × String)) : String :=
  let sorted := sortByIdx constants
  let joined := String.intercalate "_" (sorted.map (fun p => toString p.1 ++ "c" ++ p.2))
  pyReplaceChar (pyReplaceChar joined (Char.ofNat 46) "_d_") quoteChar "_sq_"

/-- `mangle_fn` (compiler.py 90-97). -/
def mangle_fn (name : String) (argTys : List Ty) (constants : List (Nat × String)) :
    String :=
  let mangledArgNames := String.intercalate "_" (argTys.map mangle_ty)
  name ++ "__" ++ mangledArgNames ++ "__" ++ mangleConstants constants

/-- A cached return type: one type, a tuple of types, or none. -/
inductive RetTy where
  | one (t : Ty)
  | tuple (ts : List Ty)
  | noneRet
deriving DecidableEq, Repr

/-- The per-compilation-unit state `visit_Call` consults: the IR functions
present in the module and the `function_ret_types` cache. -/
structure CallUnit where
  moduleFns : List String
  functionRetTypes : List (String × RetTy)
deriving DecidableEq, Repr

/-- The JIT-function path of `visit_Call` (compiler.py 837-847): mangle the
callee over its runtime argument types and constant bindings; generate the
callee under that name only if the module does not already have it, caching
the inferred return type; otherwise reuse the cached return type.
`inferRet` stands for the recursive translation's return type. -/
def visit_Call_jit (st : CallUnit) (calleeName : String) (argTys : List Ty)
    (constants : List (Nat × String)) (inferRet : RetTy) :
    CallUnit × String × RetTy :=
  let fnName := mangle_fn calleeName argTys constants
  if st.moduleFns.contains fnName then
    (st, fnName, (List.lookup fnName st.functionRetTypes).getD .noneRet)
  else
    ({ moduleFns := st.moduleFns ++ [fnName],
       functionRetTypes := dictSet st.functionRetTypes fnName inferRet },
     fnName, inferRet)

/-! ## Function-region blocks and the loop dry runs (compiler.py 586-649, 722-781) -/

/-- The kinds of ops the embedded fragments emit. -/
inductive OpKind where
  | arith (tag : Nat)
  | whileOp
  | forOp
  | assertOp
deriving DecidableEq, Repr

/-- A basic block of the function region: an id plus the ops emitted into it. -/
structure IRBlock where
  id : Nat
  ops : List OpKind
deriving DecidableEq, Repr

/-- The function region under construction. -/
structure FuncIR where
  blocks : List IRBlock
  nextId : Nat
deriving DecidableEq, Repr

/-- `builder.create_block()`: a fresh empty block appended to the function
region (the native binding creates the block in the region of the current
insertion point). -/
def createBlock (f : FuncIR) : FuncIR × Nat :=
  ({ blocks := f.blocks ++ [⟨f.nextId, []⟩], nextId := f.nextId + 1 }, f.nextId)

/-- `block.erase()`. -/
def eraseBlock (f : FuncIR) (id : Nat) : FuncIR :=
  { f with blocks := f.blocks.filter (fun b => b.id != id) }

/-- Emit ops at the end of block `id`. -/
def emitOps (f : FuncIR) (id : Nat) (ops : List OpKind) : FuncIR :=
  { f with
    blocks := f.blocks.map (fun b => if b.id = id then { b with ops := b.ops ++ ops } else b) }

/-- The block bookkeeping of `visit_While` (compiler.py 586-649): the body
is first lowered into a scratch `dummy` block (in the function region) to
discover loop-carried names; the real before/after blocks are then created
inside the while op's own regions (`create_block_with_parent`).  The
scratch block is never erased. -/
def visit_While_blocks (f : FuncIR) (insertBlock : Nat) (bodyOps condOps : List OpKind) :
    FuncIR × IRBlock × IRBlock :=
  let fd := createBlock f
  let f1 := emitOps fd.1 fd.2 bodyOps
  let f2 := emitOps f1 insertBlock [.whileOp]
  let beforeBlock : IRBlock := ⟨f2.nextId, condOps⟩
  let afterBlock : IRBlock := ⟨f2.nextId + 1, bodyOps⟩
  ({ f2 with nextId := f2.nextId + 2 }, beforeBlock, afterBlock)

/-- The corresponding bookkeeping of `visit_For` (compiler.py 722-781): the
dry-run block is erased (`block.erase()`, line 733) before the for op is
created; the real body lives in the for op's region. -/
def visit_For_blocks (f : FuncIR) (insertBlock : Nat) (bodyOps : List OpKind) :
    FuncIR × IRBlock :=
  let fd := createBlock f
  let f1 := emitOps fd.1 fd.2 bodyOps
  let f2 := eraseBlock f1 fd.2
  let f3 := emitOps f2 insertBlock [.forOp]
  let bodyBlock : IRBlock := ⟨f3.nextId, bodyOps⟩
  ({ f3 with nextId := f3.nextId + 1 }, bodyBlock)

/-! ## Assert elision (compiler.py 803-809, 818-822) -/

/-- Kernel expressions, as far as their IR emission matters: a constant
emits nothing, an arithmetic node emits one op after its operands. -/
inductive KExpr where
  | const (n : Int)
  | arith (tag : Nat) (a b : KExpr)
deriving DecidableEq, Repr

/-- Visiting an expression emits the ops of its arithmetic nodes into the
current block. -/
def visitExpr (f : FuncIR) (cur : Nat) : KExpr → FuncIR
  | .const _ => f
  | .arith tag a b => emitOps (visitExpr (visitExpr f cur a) cur b) cur [.arith tag]

/-- `visit_Assert` (compiler.py 803-809): without debug the statement is
skipped before its test and message are visited. -/
def visit_Assert (debug : Bool) (f : FuncIR) (cur : Nat) (test msg : KExpr) : FuncIR :=
  if !debug then f
  else
    let f1 := visitExpr f cur test
    let f2 := visitExpr f1 cur msg
    emitOps f2 cur [.assertOp]

/-- The `device_assert` path of `visit_Call` (compiler.py 811-822): the
keyword and positional arguments are visited first (emitting their IR);
only then does the debug check return `None` without an assert op. -/
def visit_Call_device_assert (debug : Bool) (f : FuncIR) (cur : Nat)
    (args : List KExpr) : FuncIR × Option Unit :=
  let f1 := args.foldl (fun acc a => visitExpr acc cur a) f
  if !debug then (f1, none)
  else (emitOps f1 cur [.assertOp], none)

/-- Statements, as far as assert elision is concerned. -/
inductive KStmt where
  | assertStmt (test : KExpr) (msg : KExpr)
  | exprStmt (e : KExpr)
  | deviceAssertCall (args : List KExpr)
deriving DecidableEq, Repr

def lowerStmt (debug : Bool) (cur : Nat) (f : FuncIR) : KStmt → FuncIR
  | .assertStmt t m => visit_Assert debug f cur t m
  | .exprStmt e => visitExpr f cur e
  | .deviceAssertCall args => (visit_Call_device_assert debug f cur args).1

def lowerStmts (debug : Bool) (cur : Nat) (f : FuncIR) (stmts : List KStmt) : FuncIR :=
  stmts.foldl (lowerStmt debug cur) f

/-- Drop the `assert` statements from a body. -/
def removeAsserts (stmts : List KStmt) : List KStmt :=
  stmts.filter (fun s => match s with | .assertStmt _ _ => false | _ => true)

/-! ## `CacheManager` and the stage loop of `compile` (compiler.py 1609-1646, 1986-2038) -/

/-- The host filesystem, as far as the pipeline consults it: a map from
path to the file's current change time (`os.path.getctime`). -/
abbrev FileSys := List (String × Nat)

/-- `CacheManager` after `__init__` (compiler.py 1613-1623). -/
structure CacheManager where
  key : String
  cacheDir : String
  lockPath : Option String
deriving DecidableEq, Repr

/-- `CacheManager.__init__` with the cache-directory setting `base`: an
empty setting leaves `cache_dir` falsy, disabling the cache. -/
def CacheManager.init (base key : String) : CacheManager :=
  if base = "" then { key := key, cacheDir := "", lockPath := none }
  else
    { key := key, cacheDir := base ++ "/" ++ key,
      lockPath := some (base ++ "/" ++ key ++ "/lock") }

/-- `CacheManager._make_path` (`os.path.join` of the cache directory; for
the empty directory this is the bare filename). -/
def CacheManager.makePath (cm : CacheManager) (filename : String) : String :=
  if cm.cacheDir = "" then filename else cm.cacheDir ++ "/" ++ filename

/-- `CacheManager.has_file` (compiler.py 1628-1631). -/
def CacheManager.hasFile (cm : CacheManager) (fs : FileSys) (filename : String) : Bool :=
  if cm.cacheDir = "" then false
  else (List.lookup (cm.makePath filename) fs).isSome

/-- `CacheManager.put` (compiler.py 1633-1646): a no-op without a cache
directory, otherwise an atomic write that stamps the cache file with the
current time `now`. -/
def CacheManager.put (cm : CacheManager) (fs : FileSys) (filename : String) (now : Nat) :
    FileSys :=
  if cm.cacheDir = "" then fs
  else dictSet fs (cm.makePath filename) now

/-- The `CompilationRecord` metadata, as consulted by the stage loop: the
per-stage change-time map `metadata["ctime"]`. -/
structure Metadata where
  ctime : List (String × Nat)
deriving DecidableEq, Repr

/-- What happened at each step of the stage loop. -/
inductive StageEvent where
  | parseInput (ir : String)
  | reload (ir : String)
  | compiled (ir : String)
  | putArtifact (ir : String)
  | putMetadata
deriving DecidableEq, Repr

/-- The pipeline's running state: the filesystem, the metadata record under
construction, a clock supplying fresh change times, and the event trace. -/
structure PipeState where
  fs : FileSys
  meta : Metadata
  clock : Nat
  events : List StageEvent
deriving DecidableEq, Repr

/-- The cached artifact file of a stage: `f"{name}.{ir}"`. -/
def stageFile (name ir : String) : String := name ++ "." ++ ir

/-- The reload condition of compiler.py 2005-2007: the cached file exists,
the stage has a recorded change time, and the two agree exactly. -/
def reloadCond (cm : CacheManager) (fs : FileSys) (meta : Metadata) (name ir : String) :
    Bool :=
  match List.lookup (cm.makePath (stageFile name ir)) fs,
        List.lookup ir meta.ctime with
  | some t, some r => t == r
  | _, _ => false

/-- The body of one stage iteration before the change-time recording
(compiler.py 2001-2018): the starting stage parses the input; any other
stage reloads from the cache when `reloadCond` holds and otherwise runs
the stage compiler and immediately `put`s the artifact. -/
def stageBody (cm : CacheManager) (ext name : String) (st : PipeState) (ir : String) :
    PipeState :=
  if ir = ext then { st with events := st.events ++ [.parseInput ir] }
  else if reloadCond cm st.fs st.meta name ir then
    { st with events := st.events ++ [.reload ir] }
  else
    { st with
      fs := cm.put st.fs (stageFile name ir) st.clock,
      clock := st.clock + 1,
      events := st.events ++ [.compiled ir, .putArtifact ir] }

/-- `if os.path.exists(path): metadata["ctime"][ir] = os.path.getctime(path)`
(compiler.py 2019-2020). -/
def recordCtime (cm : CacheManager) (name ir : String) (st1 : PipeState) : PipeState :=
  match List.lookup (cm.makePath (stageFile name ir)) st1.fs with
  | some t => { st1 with meta := { ctime := dictSet st1.meta.ctime ir t } }
  | none => st1

/-- One iteration of the stage loop of `compile` (compiler.py 2001-2020). -/
def runStage (cm : CacheManager) (ext name : String) (st : PipeState) (ir : String) :
    PipeState :=
  recordCtime cm name ir (stageBody cm ext name st ir)

/-- The stage loop of `compile` plus the final metadata write-back
(compiler.py 1997-2038): iterate the stages from the starting one, then
persist the record regardless of which stages were skipped. -/
def runPipeline (cm : CacheManager) (stages : List String) (ext name : String)
    (fs0 : FileSys) (meta0 : Metadata) : PipeState :=
  let rest := stages.dropWhile (fun s => s != ext)
  let fin := rest.foldl (runStage cm ext name) ⟨fs0, meta0, 0, []⟩
  { fin with
    fs := cm.put fin.fs (name ++ ".json") fin.clock,
    clock := fin.clock + 1,
    events := fin.events ++ [.putMetadata] }

/-- Loading the metadata record (compiler.py 1986-1992): the persisted
record if the cache holds one, otherwise a fresh record with an empty
change-time map. -/
def initMetadata (cm : CacheManager) (fs : FileSys) (name : String)
    (stored : Metadata) : Metadata :=
  if cm.hasFile fs (name ++ ".json") then stored else { ctime := [] }

/-- `compile`'s metadata load followed by the stage loop. -/
def compileRun (cm : CacheManager) (stages : List String) (ext name : String)
    (fs0 : FileSys) (stored : Metadata) : PipeState :=
  runPipeline cm stages ext name fs0 (initMetadata cm fs0 name stored)

/-- The per-stage trace, as determined by the initial filesystem and
metadata alone (valid while the stage's path and record are untouched by
earlier stages). -/
def decidedTrace (cm : CacheManager) (ext name : String) (fs0 : FileSys)
    (meta0 : Metadata) (ir : String) : List StageEvent :=
  if ir = ext then [.parseInput ir]
  else if reloadCond cm fs0 meta0 name ir then [.reload ir]
  else [.compiled ir, .putArtifact ir]

/-- Stage `ir`'s cached path and metadata entry agree between the running
state `st` and the initial `fs0`/`meta0`. -/
def Untouched (cm : CacheManager) (name : String) (fs0 : FileSys) (meta0 : Metadata)
    (st : PipeState) (ir : String) : Prop :=
  List.lookup (cm.makePath (stageFile name ir)) st.fs =
    List.lookup (cm.makePath (stageFile name ir)) fs0 ∧
  List.lookup ir st.meta.ctime = List.lookup ir meta0.ctime

/-- The number of assert ops in the function region. -/
def assertOpCount (f : FuncIR) : Nat :=
  (f.blocks.map (fun b => b.ops.countP (fun o => o == OpKind.assertOp))).sum

/-! ## Lemmas -/

theorem lookup_dictSet_self {α : Type} (l : List (String × α)) (k : String) (v : α) :
    List.lookup k (dictSet l k v) = some v := by
  induction l with
  | nil => simp [dictSet, List.lookup]
  | cons hd tl ih =>
    obtain ⟨k0, v0⟩ := hd
    by_cases h : k0 = k
    · simp [dictSet, h, List.lookup]
    · have hb : (k == k0) = false := by
        simp only [beq_eq_false_iff_ne, ne_eq]
        exact fun hk => h hk.symm
      simp [dictSet, if_neg h, List.lookup, hb, ih]

theorem lookup_dictSet_other {α : Type} (l : List (String × α)) (k k0 : String) (v : α)
    (h : k0 ≠ k) : List.lookup k0 (dictSet l k v) = List.lookup k0 l := by
  induction l with
  | nil =>
    have hb : (k0 == k) = false := beq_eq_false_iff_ne.mpr h
    simp [dictSet, List.lookup, hb]
  | cons hd tl ih =>
    obtain ⟨k1, v1⟩ := hd
    by_cases h1 : k1 = k
    · subst h1
      have hb : (k0 == k1) = false := beq_eq_false_iff_ne.mpr h
      simp [dictSet, List.lookup, hb]
    · simp only [dictSet, if_neg h1, List.lookup]
      by_cases hk : k0 = k1
      · subst hk; simp
      · have hb : (k0 == k1) = false := by simp [beq_eq_false_iff_ne, hk]
        simp [hb, ih]

/-! ## Claim theorems -/

/-- Claim C2: a dynamic `for` over a compile-time-constant negative step is
normalized by negating the step and swapping the bounds, so the counted
loop receives a non-negative step, and the body observes the induction
variable rebound to `stop - raw + start` over the normalized bounds; in
particular `range(10, 0, -2)` runs internally over start 0, stop 10, step 2
while the body observes 10, 8, 6, 4, 2 in order. -/
theorem c2_negative_step_normalization (start stop step : Int) (h : step < 0) :
    normalizeForRange start stop step true =
      { lb := stop, ub := start, step := -step, negativeStep := true } ∧
    0 ≤ (normalizeForRange start stop step true).step ∧
    (∀ raw : Int,
      visibleIV (normalizeForRange start stop step true) raw = start - raw + stop) ∧
    normalizeForRange 10 0 (-2) true =
      { lb := 0, ub := 10, step := 2, negativeStep := true } ∧
    rangeValues 0 10 2 = [0, 2, 4, 6, 8] ∧
    observedIVs 10 0 (-2) true = [10, 8, 6, 4, 2] := by
  have hn : normalizeForRange start stop step true =
      { lb := stop, ub := start, step := -step, negativeStep := true } := by
    simp [normalizeForRange, h]
  refine ⟨hn, ?_, ?_, by decide, by decide, by decide⟩
  · rw [hn]
    show (0 : Int) ≤ -step
    omega
  · intro raw
    rw [hn]
    simp [visibleIV]

theorem c2_witness :
    ((-2 : Int) < 0) ∧ observedIVs 10 0 (-2) true = [10, 8, 6, 4, 2] :=
  ⟨by decide, (c2_negative_step_normalization 10 0 (-2) (by decide)).2.2.2.2.2⟩

/-- Claim C7: contrary to the specified discard, the scratch block into
which `visit_While` dry-runs the loop body survives in the function region
together with the speculatively emitted ops (it is never erased), while
`visit_For` does erase its dry-run block.  Computed on a one-op body: after
`visit_While_blocks` the function region still holds block 1 with the
dry-run op; after `visit_For_blocks` no scratch block remains. -/
theorem c7_while_scratch_block_not_discarded :
    (visit_While_blocks ⟨[⟨0, []⟩], 1⟩ 0 [.arith 7] [.arith 3]).1.blocks =
      [⟨0, [.whileOp]⟩, ⟨1, [.arith 7]⟩] ∧
    (visit_For_blocks ⟨[⟨0, []⟩], 1⟩ 0 [.arith 7]).1.blocks = [⟨0, [.forOp]⟩] := by
  decide

/-- Claim C6 (counterexample): a name bound in the local scope as a
constexpr is silently re-bound by a plain assignment — `visit_Assign`
performs no check against the prior binding, so no definition error is
raised and the constant's binding is replaced. -/
theorem c6_counterexample :
    visit_Assign1 ⟨[("x", .constexpr (.pyint 5))], []⟩ 9 "x" (.pyint 3) =
      ⟨[("x", .tensor ⟨9, .int .signed 32⟩)], [("x", .tensor ⟨9, .int .signed 32⟩)]⟩ ∧
    List.lookup "x" (visit_Assign1 ⟨[("x", .constexpr (.pyint 5))], []⟩ 9
        "x" (.pyint 3)).lscope ≠ some (.constexpr (.pyint 5)) := by
  constructor
  · rfl
  · decide

/-- Claim C6 (amended): a constexpr-annotated assignment whose target is
already bound in the local scope (whatever the prior binding is) fails with
the definition error naming the target; an unbound target is bound to a
constexpr; a plain assignment never checks the prior binding — it succeeds
and re-binds the name. -/
theorem c6_constexpr_rebinding (st : GenScope) (target : String) (value : PyVal) :
    ((List.lookup target st.lscope).isSome = true →
      visit_AnnAssign_constexpr st target value =
        .error (target ++ " is already defined. constexpr cannot be reassigned.")) ∧
    ((List.lookup target st.lscope).isSome = false →
      ∃ v, visit_AnnAssign_constexpr st target value =
          .ok { st with lscope := dictSet st.lscope target v } ∧
        _is_constexpr v = true) ∧
    (∀ fresh, ∃ w, List.lookup target (visit_Assign1 st fresh target value).lscope
        = some w ∧
      w = (let u := _unwrap_if_constexpr value
           if _is_triton_tensor u || isNativeNontensor u then u else _to_tensor fresh u)) := by
  refine ⟨?_, ?_, ?_⟩
  · intro h
    simp [visit_AnnAssign_constexpr, h]
  · intro h
    refine ⟨if _is_constexpr value then value else .constexpr value, ?_, ?_⟩
    · simp [visit_AnnAssign_constexpr, h]
    · by_cases hc : _is_constexpr value = true
      · rw [if_pos hc]; exact hc
      · rw [if_neg hc]; rfl
  · intro fresh
    refine ⟨_, ?_, rfl⟩
    simp [visit_Assign1, set_value]
    exact lookup_dictSet_self _ _ _

theorem c6_witness :
    visit_AnnAssign_constexpr ⟨[("x", .constexpr (.pyint 5))], []⟩ "x" (.pyint 3) =
      .error "x is already defined. constexpr cannot be reassigned." := by
  exact (c6_constexpr_rebinding ⟨[("x", .constexpr (.pyint 5))], []⟩ "x" (.pyint 3)).1
    (by decide)

/-- Claim C9 (counterexample): with the debug flag off, a call to the
device-assert built-in still visits its argument expressions, whose IR is
emitted; the lowered module therefore differs from the module for the same
body with the assert call removed. -/
theorem c9_counterexample :
    lowerStmts false 0 ⟨[⟨0, []⟩], 1⟩
        [.deviceAssertCall [.arith 5 (.const 1) (.const 2)]] ≠
      lowerStmts false 0 ⟨[⟨0, []⟩], 1⟩ [] := by
  decide

/-- Claim C5: name resolution tries the local scope, the enclosing module
namespace and the built-in namespace in that order, returning the first
binding found and raising `NameError` naming the identifier when all three
fail; a local-scope hit on a name that was not locally defined records the
name in the global-uses map as its only effect — the returned value is the
local binding either way. -/
theorem c5_name_resolution (st : LookupState) (name : String) :
    (∀ v, List.lookup name st.lscope = some v →
      name_lookup st name =
        .ok (v, if (List.lookup name st.localDefs).isSome then st
                else { st with globalUses := dictSet st.globalUses name v })) ∧
    (List.lookup name st.lscope = none →
      (∀ v, List.lookup name st.gscope = some v →
        name_lookup st name = .ok (v, st)) ∧
      (List.lookup name st.gscope = none →
        (∀ v, List.lookup name st.builtins = some v →
          name_lookup st name = .ok (v, st)) ∧
        (List.lookup name st.builtins = none →
          name_lookup st name = .error (name ++ " is not defined")))) := by
  refine ⟨?_, ?_⟩
  · intro v hv
    simp [name_lookup, local_lookup, hv]
  · intro h0
    refine ⟨?_, ?_⟩
    · intro v hv
      simp [name_lookup, local_lookup, h0, hv]
    · intro h1
      refine ⟨?_, ?_⟩
      · intro v hv
        simp [name_lookup, local_lookup, h0, h1, hv]
      · intro h2
        simp [name_lookup, local_lookup, h0, h1, h2]

theorem c5_witness :
    name_lookup ⟨[("x", .pyint 7)], [], [], [("x", .pyint 9)], []⟩ "x" =
      .ok (.pyint 7, ⟨[("x", .pyint 7)], [], [("x", .pyint 7)], [("x", .pyint 9)], []⟩) := by
  exact (c5_name_resolution ⟨[("x", .pyint 7)], [], [], [("x", .pyint 9)], []⟩ "x").1
    (.pyint 7) (by decide)

theorem assertOpCount_emitOps (f : FuncIR) (id : Nat) (ops : List OpKind)
    (h : ops.countP (fun o => o == OpKind.assertOp) = 0) :
    assertOpCount (emitOps f id ops) = assertOpCount f := by
  obtain ⟨blocks, nid⟩ := f
  simp only [assertOpCount, emitOps]
  induction blocks with
  | nil => simp
  | cons b bs ih =>
    simp only [List.map_cons, List.sum_cons] at *
    rw [ih]
    by_cases hb : b.id = id
    · simp [hb, List.countP_append, h]
    · simp [hb]

theorem visitExpr_assertOpCount (e : KExpr) : ∀ (f : FuncIR) (cur : Nat),
    assertOpCount (visitExpr f cur e) = assertOpCount f := by
  induction e with
  | const n => intro f cur; rfl
  | arith tag a b iha ihb =>
    intro f cur
    show assertOpCount (emitOps (visitExpr (visitExpr f cur a) cur b) cur [.arith tag]) = _
    rw [assertOpCount_emitOps _ _ _ (by simp), ihb, iha]

theorem visitArgs_assertOpCount (args : List KExpr) : ∀ (f : FuncIR) (cur : Nat),
    assertOpCount (args.foldl (fun acc a => visitExpr acc cur a) f) = assertOpCount f := by
  induction args with
  | nil => intro f cur; rfl
  | cons a rest ih =>
    intro f cur
    show assertOpCount (rest.foldl _ (visitExpr f cur a)) = _
    rw [ih, visitExpr_assertOpCount]

theorem lowerStmts_elides_asserts (stmts : List KStmt) : ∀ (f : FuncIR) (cur : Nat),
    lowerStmts false cur f stmts = lowerStmts false cur f (removeAsserts stmts) := by
  induction stmts with
  | nil => intro f cur; rfl
  | cons s rest ih =>
    intro f cur
    cases s with
    | assertStmt t m =>
      show lowerStmts false cur (visit_Assert false f cur t m) rest = _
      exact ih f cur
    | exprStmt e =>
      show lowerStmts false cur (visitExpr f cur e) rest = _
      exact ih (visitExpr f cur e) cur
    | deviceAssertCall args =>
      show lowerStmts false cur _ rest = lowerStmts false cur _ (removeAsserts rest)
      exact ih _ cur

/-- Claim C9 (amended): with the debug flag off, `assert` statements are
elided entirely (their operands are not visited and the lowered module
equals that of the body with the assert statements removed); a call to the
device-assert built-in returns `None` and emits no assert op, but its
argument expressions are visited first, so their IR is still emitted. -/
theorem c9_assert_elision_no_debug (f : FuncIR) (cur : Nat) (stmts : List KStmt)
    (test msg : KExpr) (args : List KExpr) :
    visit_Assert false f cur test msg = f ∧
    lowerStmts false cur f stmts = lowerStmts false cur f (removeAsserts stmts) ∧
    (visit_Call_device_assert false f cur args).2 = none ∧
    (visit_Call_device_assert false f cur args).1 =
      args.foldl (fun acc a => visitExpr acc cur a) f ∧
    assertOpCount (visit_Call_device_assert false f cur args).1 = assertOpCount f := by
  refine ⟨rfl, lowerStmts_elides_asserts stmts f cur, rfl, rfl, ?_⟩
  show assertOpCount (args.foldl (fun acc a => visitExpr acc cur a) f) = _
  exact visitArgs_assertOpCount args f cur

/-- Claim C4 (counterexample): the constant maps `{0: "a.b"}` and
`{0: "a_d_b"}` differ, yet `mangle_fn` escapes `.` as `_d_` and maps both
to the same mangled name; a second call with the differing constant binding
therefore finds the function already present and reuses it — one IR
function serves two distinct constant bindings. -/
theorem c4_counterexample :
    (((0, "a.b") : Nat × String) ≠ (0, "a_d_b")) ∧
    mangle_fn "f" [.fp32] [(0, "a.b")] = mangle_fn "f" [.fp32] [(0, "a_d_b")] ∧
    (visit_Call_jit ((visit_Call_jit ⟨[], []⟩ "f" [.fp32] [(0, "a.b")] (.one .fp32)).1)
        "f" [.fp32] [(0, "a_d_b")] (.one .fp16)).1 =
      (visit_Call_jit ⟨[], []⟩ "f" [.fp32] [(0, "a.b")] (.one .fp32)).1 ∧
    ((visit_Call_jit ⟨[], []⟩ "f" [.fp32] [(0, "a.b")] (.one .fp32)).1).moduleFns.length
      = 1 := by
  exact ⟨by decide, by decide, by decide, by decide⟩

/-- Claim C4 (amended): the mangled name is a deterministic function of the
callee name, the ordered runtime argument types and the key-sorted constant
reprs; a call whose mangled name already exists in the module reuses the
existing function and its cached return type, so two identical calls
generate exactly one IR function; differing constant bindings produce
distinct mangled names and distinct functions whenever their escaped
encodings (after `.` is rewritten to `_d_` and the apostrophe to `_sq_`)
differ — the escaping itself can collide, in which case the colliding call
reuses the other binding's function. -/
theorem c4_monomorphization (st : CallUnit) (calleeName : String) (argTys : List Ty)
    (constants1 constants2 : List (Nat × String)) (r1 r2 : RetTy) :
    (st.moduleFns.contains (mangle_fn calleeName argTys constants1) = true →
      (visit_Call_jit st calleeName argTys constants1 r1).1 = st) ∧
    (st.moduleFns.contains (mangle_fn calleeName argTys constants1) = false →
      (visit_Call_jit st calleeName argTys constants1 r1).1.moduleFns =
        st.moduleFns ++ [mangle_fn calleeName argTys constants1] ∧
      (visit_Call_jit (visit_Call_jit st calleeName argTys constants1 r1).1
          calleeName argTys constants1 r2).1 =
        (visit_Call_jit st calleeName argTys constants1 r1).1 ∧
      (visit_Call_jit (visit_Call_jit st calleeName argTys constants1 r1).1
          calleeName argTys constants1 r2).2.2 = r1) ∧
    (mangleConstants constants1 ≠ mangleConstants constants2 →
      mangle_fn calleeName argTys constants1 ≠ mangle_fn calleeName argTys constants2) := by
  refine ⟨?_, ?_, ?_⟩
  · intro h
    have hm : mangle_fn calleeName argTys constants1 ∈ st.moduleFns := by
      simpa using h
    simp [visit_Call_jit, hm]
  · intro h
    have hm : mangle_fn calleeName argTys constants1 ∉ st.moduleFns := by
      simpa using h
    have hm2 : mangle_fn calleeName argTys constants1 ∈
        st.moduleFns ++ [mangle_fn calleeName argTys constants1] := by
      simp
    refine ⟨?_, ?_, ?_⟩
    · simp [visit_Call_jit, hm]
    · simp [visit_Call_jit, hm, hm2]
    · simp [visit_Call_jit, hm, hm2, lookup_dictSet_self]
  · intro hne heq
    apply hne
    have hd := congrArg String.data heq
    simp only [mangle_fn, String.data_append, List.append_assoc,
      List.append_cancel_left_eq] at hd
    exact String.ext hd

theorem c4_witness :
    ((CallUnit.mk [] []).moduleFns.contains (mangle_fn "f" [.fp32] [(0, "1")]) = false) ∧
    (visit_Call_jit ⟨[], []⟩ "f" [.fp32] [(0, "1")] (.one .fp32)).1.moduleFns =
      [] ++ [mangle_fn "f" [.fp32] [(0, "1")]] ∧
    mangleConstants [(0, "1")] ≠ mangleConstants [(0, "2")] ∧
    mangle_fn "f" [.fp32] [(0, "1")] ≠ mangle_fn "f" [.fp32] [(0, "2")] := by
  refine ⟨by decide, ?_, by decide, ?_⟩
  · exact ((c4_monomorphization ⟨[], []⟩ "f" [.fp32] [(0, "1")] [(0, "2")]
      (.one .fp32) (.one .fp32)).2.1 (by decide)).1
  · exact (c4_monomorphization ⟨[], []⟩ "f" [.fp32] [(0, "1")] [(0, "2")]
      (.one .fp32) (.one .fp32)).2.2 (by decide)


/-- Claim C8: for a node located within the source, the rendered
compilation-error message carries the node's line and column, followed by a
source excerpt of at most 12 lines ending at the node's line, whose final
line is a caret preceded by exactly column-offset spaces, followed by the
optional error message when one is present. -/
theorem c8_error_excerpt (s : String) (lineno col : Nat) (errMsg : Option String)
    (h1 : 1 ≤ lineno) (h2 : lineno ≤ (splitLines s).length) :
    ∃ E : List String,
      format_message (some s) lineno col errMsg =
        (let message := "at " ++ toString lineno ++ ":" ++ toString col ++ ":" ++
            String.intercalate "\n" (E ++ [caretLine col])
         match errMsg with
         | some m => message ++ "\n" ++ m
         | none => message) ∧
      E.length ≤ source_line_count_max_in_message ∧
      E ≠ [] ∧
      E.getLast? = (splitLines s)[lineno - 1]? ∧
      caretLine col = String.mk (List.replicate col ' ') ++ "^" := by
  have htake : ((splitLines s).take lineno).length = lineno := by
    rw [List.length_take]; omega
  have hlenE : (lastN source_line_count_max_in_message
      ((splitLines s).take lineno)).length =
      lineno - (lineno - source_line_count_max_in_message) := by
    rw [lastN, List.length_drop, htake]
  have hpos : 0 < (lastN source_line_count_max_in_message
      ((splitLines s).take lineno)).length := by
    rw [hlenE]
    simp only [source_line_count_max_in_message]
    omega
  have hnil : lastN source_line_count_max_in_message
      ((splitLines s).take lineno) ≠ [] := List.ne_nil_of_length_pos hpos
  have hempty : (lastN source_line_count_max_in_message
      ((splitLines s).take lineno)).isEmpty = false := by
    cases hE : lastN source_line_count_max_in_message ((splitLines s).take lineno) with
    | nil => exact absurd hE hnil
    | cons a t => rfl
  refine ⟨lastN source_line_count_max_in_message ((splitLines s).take lineno),
    ?_, ?_, hnil, ?_, rfl⟩
  · cases errMsg <;> simp [format_message, hempty]
  · rw [hlenE]
    simp only [source_line_count_max_in_message]
    omega
  · rw [lastN, List.getLast?_eq_getElem?, List.length_drop, List.getElem?_drop, htake]
    have hidx : lineno - source_line_count_max_in_message +
        (lineno - (lineno - source_line_count_max_in_message) - 1) = lineno - 1 := by
      simp only [source_line_count_max_in_message]
      omega
    rw [hidx]
    exact List.getElem?_take_of_lt (by omega)

theorem c8_witness :
    (1 ≤ 2 ∧ 2 ≤ (splitLines "abc\ndef\nghi").length) ∧
    (∃ E : List String,
      format_message (some "abc\ndef\nghi") 2 3 (some "boom") =
        (let message := "at " ++ toString 2 ++ ":" ++ toString 3 ++ ":" ++
            String.intercalate "\n" (E ++ [caretLine 3])
         match (some "boom" : Option String) with
         | some m => message ++ "\n" ++ m
         | none => message) ∧
      E.length ≤ source_line_count_max_in_message ∧
      E ≠ [] ∧
      E.getLast? = (splitLines "abc\ndef\nghi")[2 - 1]? ∧
      caretLine 3 = String.mk (List.replicate 3 ' ') ++ "^") :=
  ⟨⟨by decide, by decide⟩,
    c8_error_excerpt "abc\ndef\nghi" 2 3 (some "boom") (by decide) (by decide)⟩

theorem str_append_left_cancel (p a b : String) (h : p ++ a = p ++ b) : a = b := by
  have hd := congrArg String.data h
  simp only [String.data_append, List.append_cancel_left_eq] at hd
  exact String.ext hd

theorem makePath_stageFile_inj (cm : CacheManager) (name : String) {a b : String}
    (h : a ≠ b) :
    cm.makePath (stageFile name a) ≠ cm.makePath (stageFile name b) := by
  intro heq
  apply h
  unfold CacheManager.makePath stageFile at heq
  by_cases hd : cm.cacheDir = ""
  · rw [if_pos hd, if_pos hd] at heq
    exact str_append_left_cancel (name ++ ".") a b heq
  · rw [if_neg hd, if_neg hd] at heq
    have := str_append_left_cancel (cm.cacheDir ++ "/") _ _ heq
    exact str_append_left_cancel (name ++ ".") a b this

theorem put_lookup_other (cm : CacheManager) (fs : FileSys) (file : String) (now : Nat)
    (p : String) (hp : p ≠ cm.makePath file) :
    List.lookup p (cm.put fs file now) = List.lookup p fs := by
  unfold CacheManager.put
  by_cases hd : cm.cacheDir = ""
  · rw [if_pos hd]
  · rw [if_neg hd]
    exact lookup_dictSet_other _ _ _ _ hp

theorem recordCtime_events (cm : CacheManager) (name ir : String) (st1 : PipeState) :
    (recordCtime cm name ir st1).events = st1.events := by
  unfold recordCtime
  cases List.lookup (cm.makePath (stageFile name ir)) st1.fs <;> rfl

theorem recordCtime_fs (cm : CacheManager) (name ir : String) (st1 : PipeState) :
    (recordCtime cm name ir st1).fs = st1.fs := by
  unfold recordCtime
  cases List.lookup (cm.makePath (stageFile name ir)) st1.fs <;> rfl

theorem recordCtime_meta (cm : CacheManager) (name ir : String) (st1 : PipeState) :
    (recordCtime cm name ir st1).meta.ctime = st1.meta.ctime ∨
    ∃ v, (recordCtime cm name ir st1).meta.ctime = dictSet st1.meta.ctime ir v := by
  unfold recordCtime
  cases List.lookup (cm.makePath (stageFile name ir)) st1.fs with
  | none => exact Or.inl rfl
  | some t => exact Or.inr ⟨t, rfl⟩

theorem runStage_events (cm : CacheManager) (ext name : String) (st : PipeState)
    (ir : String) :
    (runStage cm ext name st ir).events =
      st.events ++ decidedTrace cm ext name st.fs st.meta ir := by
  unfold runStage decidedTrace
  rw [recordCtime_events]
  unfold stageBody
  by_cases h1 : ir = ext
  · rw [if_pos h1, if_pos h1]
  · rw [if_neg h1, if_neg h1]
    by_cases h2 : reloadCond cm st.fs st.meta name ir = true
    · rw [if_pos h2, if_pos h2]
    · rw [if_neg h2, if_neg h2]

theorem stageBody_fs (cm : CacheManager) (ext name : String) (st : PipeState)
    (ir : String) :
    (stageBody cm ext name st ir).fs = st.fs ∨
    (stageBody cm ext name st ir).fs = cm.put st.fs (stageFile name ir) st.clock := by
  unfold stageBody
  by_cases h1 : ir = ext
  · rw [if_pos h1]; exact Or.inl rfl
  · rw [if_neg h1]
    by_cases h2 : reloadCond cm st.fs st.meta name ir = true
    · rw [if_pos h2]; exact Or.inl rfl
    · rw [if_neg h2]; exact Or.inr rfl

theorem stageBody_meta (cm : CacheManager) (ext name : String) (st : PipeState)
    (ir : String) :
    (stageBody cm ext name st ir).meta = st.meta := by
  unfold stageBody
  by_cases h1 : ir = ext
  · rw [if_pos h1]
  · rw [if_neg h1]
    by_cases h2 : reloadCond cm st.fs st.meta name ir = true
    · rw [if_pos h2]
    · rw [if_neg h2]

theorem runStage_untouched (cm : CacheManager) (ext name : String)
    (fs0 : FileSys) (meta0 : Metadata) (st : PipeState) (ir t : String)
    (hne : t ≠ ir) (h : Untouched cm name fs0 meta0 st t) :
    Untouched cm name fs0 meta0 (runStage cm ext name st ir) t := by
  have hpath : cm.makePath (stageFile name t) ≠ cm.makePath (stageFile name ir) :=
    makePath_stageFile_inj cm name hne
  constructor
  · rw [show (runStage cm ext name st ir).fs = (stageBody cm ext name st ir).fs from
      recordCtime_fs cm name ir _]
    rcases stageBody_fs cm ext name st ir with hfs | hfs
    · rw [hfs]; exact h.1
    · rw [hfs, put_lookup_other cm st.fs (stageFile name ir) st.clock _ hpath]
      exact h.1
  · rcases recordCtime_meta cm name ir (stageBody cm ext name st ir) with hm | ⟨v, hm⟩
    · rw [show (runStage cm ext name st ir).meta.ctime =
          (stageBody cm ext name st ir).meta.ctime from hm]
      rw [stageBody_meta]
      exact h.2
    · rw [show (runStage cm ext name st ir).meta.ctime =
          dictSet (stageBody cm ext name st ir).meta.ctime ir v from hm]
      rw [lookup_dictSet_other _ _ _ _ hne, stageBody_meta]
      exact h.2

theorem decidedTrace_congr (cm : CacheManager) (ext name : String)
    (fs0 : FileSys) (meta0 : Metadata) (st : PipeState) (ir : String)
    (h : Untouched cm name fs0 meta0 st ir) :
    decidedTrace cm ext name st.fs st.meta ir = decidedTrace cm ext name fs0 meta0 ir := by
  unfold decidedTrace reloadCond
  rw [h.1, h.2]

theorem foldStages (cm : CacheManager) (ext name : String)
    (fs0 : FileSys) (meta0 : Metadata) :
    ∀ (rest : List String) (st : PipeState),
    (∀ t ∈ rest, Untouched cm name fs0 meta0 st t) →
    rest.Pairwise (fun a b => a ≠ b) →
    (rest.foldl (runStage cm ext name) st).events =
      st.events ++ rest.flatMap (decidedTrace cm ext name fs0 meta0) := by
  intro rest
  induction rest with
  | nil => intro st _ _; simp
  | cons ir tail ih =>
    intro st hu hp
    rw [List.pairwise_cons] at hp
    simp only [List.foldl_cons, List.flatMap_cons]
    rw [ih (runStage cm ext name st ir) ?_ hp.2]
    · rw [runStage_events,
        decidedTrace_congr cm ext name fs0 meta0 st ir (hu ir (List.mem_cons_self ir tail)),
        List.append_assoc]
    · intro t ht
      exact runStage_untouched cm ext name fs0 meta0 st ir t
        (fun hteq => (hp.1 t ht) hteq.symm) (hu t (List.mem_cons_of_mem ir ht))

theorem reloadCond_eq_true_iff (cm : CacheManager) (fs : FileSys) (meta : Metadata)
    (name ir : String) :
    reloadCond cm fs meta name ir = true ↔
      ∃ tv, List.lookup (cm.makePath (stageFile name ir)) fs = some tv ∧
        List.lookup ir meta.ctime = some tv := by
  unfold reloadCond
  cases h1 : List.lookup (cm.makePath (stageFile name ir)) fs with
  | none => simp
  | some t =>
    cases h2 : List.lookup ir meta.ctime with
    | none => simp
    | some r =>
      simp only [beq_iff_eq, Option.some.injEq]
      constructor
      · intro h; exact ⟨t, rfl, by rw [h]⟩
      · rintro ⟨tv, h3, h4⟩; rw [h3, h4]

theorem decidedTrace_reload (cm : CacheManager) (ext name : String) (fs0 : FileSys)
    (meta0 : Metadata) (ir : String) (h1 : ir ≠ ext)
    (h2 : reloadCond cm fs0 meta0 name ir = true) :
    decidedTrace cm ext name fs0 meta0 ir = [.reload ir] := by
  unfold decidedTrace
  rw [if_neg h1, if_pos h2]

theorem decidedTrace_compile (cm : CacheManager) (ext name : String) (fs0 : FileSys)
    (meta0 : Metadata) (ir : String) (h1 : ir ≠ ext)
    (h2 : reloadCond cm fs0 meta0 name ir = false) :
    decidedTrace cm ext name fs0 meta0 ir = [.compiled ir, .putArtifact ir] := by
  unfold decidedTrace
  rw [if_neg h1, if_neg (by simp [h2])]

theorem runPipeline_events (cm : CacheManager) (stages : List String) (ext name : String)
    (fs0 : FileSys) (meta0 : Metadata)
    (hp : stages.Pairwise (fun a b => a ≠ b)) :
    (runPipeline cm stages ext name fs0 meta0).events =
      (stages.dropWhile (fun t => t != ext)).flatMap
          (decidedTrace cm ext name fs0 meta0) ++ [.putMetadata] := by
  have hrp : (stages.dropWhile (fun t => t != ext)).Pairwise (fun a b => a ≠ b) :=
    List.Pairwise.sublist (List.dropWhile_sublist _) hp
  unfold runPipeline
  dsimp only
  rw [foldStages cm ext name fs0 meta0 _ ⟨fs0, meta0, 0, []⟩ (fun t _ => ⟨rfl, rfl⟩) hrp]
  rw [List.nil_append]

/-- Claim C3: for every pipeline stage after the starting stage, `compile`
reloads the stage's artifact from the cache precisely when the stage's
cached file exists and its current change time equals the time recorded for
that stage in the persisted metadata; otherwise it runs the stage compiler
and immediately writes the artifact to the cache; and the metadata record
is written back after the last stage regardless of which stages were
skipped. -/
theorem c3_stage_cache (cm : CacheManager) (stages : List String) (ext name s : String)
    (fs0 : FileSys) (meta0 : Metadata)
    (hp : stages.Pairwise (fun a b => a ≠ b))
    (hs : s ∈ stages.dropWhile (fun t => t != ext))
    (hne : s ≠ ext) :
    (StageEvent.reload s ∈ (runPipeline cm stages ext name fs0 meta0).events ↔
      (∃ tv, List.lookup (cm.makePath (stageFile name s)) fs0 = some tv ∧
        List.lookup s meta0.ctime = some tv)) ∧
    (reloadCond cm fs0 meta0 name s = false →
      ∃ pre post, (runPipeline cm stages ext name fs0 meta0).events =
        pre ++ [.compiled s, .putArtifact s] ++ post) ∧
    (∃ pre, (runPipeline cm stages ext name fs0 meta0).events =
      pre ++ [.putMetadata]) := by
  have hev := runPipeline_events cm stages ext name fs0 meta0 hp
  refine ⟨⟨?_, ?_⟩, ?_, ?_⟩
  · intro hmem
    rw [hev, List.mem_append] at hmem
    rcases hmem with hmem | hmem
    · rw [List.mem_flatMap] at hmem
      obtain ⟨t, ht, hmem⟩ := hmem
      by_cases ht1 : t = ext
      · rw [decidedTrace, if_pos ht1] at hmem
        simp at hmem
      · by_cases ht2 : reloadCond cm fs0 meta0 name t = true
        · rw [decidedTrace_reload cm ext name fs0 meta0 t ht1 ht2] at hmem
          simp only [List.mem_singleton, StageEvent.reload.injEq] at hmem
          subst hmem
          exact (reloadCond_eq_true_iff cm fs0 meta0 name s).mp ht2
        · rw [decidedTrace_compile cm ext name fs0 meta0 t ht1
            (Bool.not_eq_true _ ▸ ht2)] at hmem
          simp at hmem
    · simp at hmem
  · intro hex
    have hrc : reloadCond cm fs0 meta0 name s = true :=
      (reloadCond_eq_true_iff cm fs0 meta0 name s).mpr hex
    rw [hev, List.mem_append]
    left
    rw [List.mem_flatMap]
    exact ⟨s, hs, by rw [decidedTrace_reload cm ext name fs0 meta0 s hne hrc]; simp⟩
  · intro hrcf
    obtain ⟨l1, l2, hsplit⟩ := List.append_of_mem hs
    refine ⟨l1.flatMap (decidedTrace cm ext name fs0 meta0),
      (l2.flatMap (decidedTrace cm ext name fs0 meta0)) ++ [.putMetadata], ?_⟩
    rw [hev, hsplit, List.flatMap_append, List.flatMap_cons,
      decidedTrace_compile cm ext name fs0 meta0 s hne hrcf]
    simp [List.append_assoc]
  · exact ⟨_, hev⟩

theorem c3_witness :
    StageEvent.reload "ttir" ∈
      (runPipeline (CacheManager.init "/c" "k") ["ast", "ttir"] "ast" "kern"
        [("/c/k/kern.ttir", 5)] ⟨[("ttir", 5)]⟩).events :=
  (c3_stage_cache (CacheManager.init "/c" "k") ["ast", "ttir"] "ast" "kern" "ttir"
      [("/c/k/kern.ttir", 5)] ⟨[("ttir", 5)]⟩ (by decide) (by decide) (by decide)).1.mpr
    ⟨5, by decide, by decide⟩

theorem put_disabled (cm : CacheManager) (hd : cm.cacheDir = "") (fs : FileSys)
    (f : String) (now : Nat) : cm.put fs f now = fs := by
  unfold CacheManager.put
  rw [if_pos hd]

theorem runStage_fs_disabled (cm : CacheManager) (hd : cm.cacheDir = "")
    (ext name : String) (st : PipeState) (ir : String) :
    (runStage cm ext name st ir).fs = st.fs := by
  rw [show (runStage cm ext name st ir).fs = (stageBody cm ext name st ir).fs from
    recordCtime_fs cm name ir _]
  rcases stageBody_fs cm ext name st ir with h | h
  · rw [h]
  · rw [h, put_disabled cm hd]

theorem foldl_fs_disabled (cm : CacheManager) (hd : cm.cacheDir = "")
    (ext name : String) :
    ∀ (rest : List String) (st : PipeState),
    (rest.foldl (runStage cm ext name) st).fs = st.fs := by
  intro rest
  induction rest with
  | nil => intro st; rfl
  | cons ir tail ih =>
    intro st
    rw [List.foldl_cons, ih, runStage_fs_disabled cm hd]

theorem reloadCond_empty_meta (cm : CacheManager) (fs : FileSys) (name ir : String) :
    reloadCond cm fs ⟨[]⟩ name ir = false := by
  unfold reloadCond
  cases List.lookup (cm.makePath (stageFile name ir)) fs <;> rfl

theorem reload_not_mem_decidedTrace (cm : CacheManager) (ext name : String)
    (fs0 : FileSys) (meta0 : Metadata) (ir s : String)
    (h : reloadCond cm fs0 meta0 name ir = false) :
    StageEvent.reload s ∉ decidedTrace cm ext name fs0 meta0 ir := by
  unfold decidedTrace
  by_cases h1 : ir = ext
  · rw [if_pos h1]; simp
  · rw [if_neg h1, if_neg (by simp [h])]
    simp

/-- Claim C10: with the cache directory configured as the empty string,
every `CacheManager` operation silently degrades to a no-op — `has_file`
returns false for every filename and `put` writes nothing — and a
compilation run persists no artifact (the filesystem is unchanged) and
reloads no stage, without raising any error. -/
theorem c10_empty_cache_dir (key : String) :
    (CacheManager.init "" key).cacheDir = "" ∧
    (∀ (fs : FileSys) (f : String), (CacheManager.init "" key).hasFile fs f = false) ∧
    (∀ (fs : FileSys) (f : String) (now : Nat),
      (CacheManager.init "" key).put fs f now = fs) ∧
    (∀ (stages : List String) (ext name : String) (fs0 : FileSys) (stored : Metadata),
      stages.Pairwise (fun a b => a ≠ b) →
      (compileRun (CacheManager.init "" key) stages ext name fs0 stored).fs = fs0 ∧
      (∀ s, StageEvent.reload s ∉
        (compileRun (CacheManager.init "" key) stages ext name fs0 stored).events)) := by
  have hd : (CacheManager.init "" key).cacheDir = "" := by
    unfold CacheManager.init
    rw [if_pos rfl]
  have hput : ∀ (fs : FileSys) (f : String) (now : Nat),
      (CacheManager.init "" key).put fs f now = fs :=
    fun fs f now => put_disabled _ hd fs f now
  have hhas : ∀ (fs : FileSys) (f : String),
      (CacheManager.init "" key).hasFile fs f = false := by
    intro fs f
    unfold CacheManager.hasFile
    rw [if_pos hd]
  refine ⟨hd, hhas, hput, ?_⟩
  intro stages ext name fs0 stored hp
  have hmeta : initMetadata (CacheManager.init "" key) fs0 name stored = ⟨[]⟩ := by
    unfold initMetadata
    rw [hhas fs0 (name ++ ".json")]
    simp
  constructor
  · show (runPipeline _ stages ext name fs0 _).fs = fs0
    unfold runPipeline
    dsimp only
    rw [hput, foldl_fs_disabled _ hd]
  · intro s hmem
    rw [show compileRun (CacheManager.init "" key) stages ext name fs0 stored =
        runPipeline (CacheManager.init "" key) stages ext name fs0 ⟨[]⟩ from by
      unfold compileRun; rw [hmeta]] at hmem
    rw [runPipeline_events _ stages ext name fs0 ⟨[]⟩ hp, List.mem_append] at hmem
    rcases hmem with hmem | hmem
    · rw [List.mem_flatMap] at hmem
      obtain ⟨t, _, hmem⟩ := hmem
      exact reload_not_mem_decidedTrace _ ext name fs0 ⟨[]⟩ t s
        (reloadCond_empty_meta _ fs0 name t) hmem
    · simp at hmem

theorem c10_witness :
    ((["ast", "ttir"] : List String).Pairwise (fun a b => a ≠ b)) ∧
    (compileRun (CacheManager.init "" "k") ["ast", "ttir"] "ast" "kern"
      [("kern.ttir", 5)] ⟨[("ttir", 5)]⟩).fs = [("kern.ttir", 5)] ∧
    (CacheManager.init "" "k").hasFile [("kern.ttir", 5)] "kern.json" = false :=
  ⟨by decide,
    ((c10_empty_cache_dir "k").2.2.2 ["ast", "ttir"] "ast" "kern"
      [("kern.ttir", 5)] ⟨[("ttir", 5)]⟩ (by decide)).1,
    (c10_empty_cache_dir "k").2.1 [("kern.ttir", 5)] "kern.json"⟩

theorem lookup_append_single {α : Type} (l : List (String × α)) (n m : String) (v : α)
    (h : n ≠ m) : List.lookup n (l ++ [(m, v)]) = List.lookup n l := by
  induction l with
  | nil =>
    have hb : (n == m) = false := beq_eq_false_iff_ne.mpr h
    simp [List.lookup, hb]
  | cons hd tl ih =>
    obtain ⟨k, w⟩ := hd
    by_cases hk : n = k
    · subst hk
      simp [List.lookup]
    · have hb : (n == k) = false := beq_eq_false_iff_ne.mpr hk
      simp only [List.cons_append, List.lookup, hb]
      exact ih

theorem lookup_none_iff_not_mem_keys {α : Type} (l : List (String × α)) (n : String) :
    List.lookup n l = none ↔ n ∉ l.map Prod.fst := by
  induction l with
  | nil => simp [List.lookup]
  | cons hd tl ih =>
    obtain ⟨k, w⟩ := hd
    by_cases hk : n = k
    · subst hk
      simp [List.lookup]
    · have hb : (n == k) = false := beq_eq_false_iff_ne.mpr hk
      simp [List.lookup, hb, ih, hk]

theorem lookup_some_mem {α : Type} {l : List (String × α)} {n : String} {v : α}
    (h : List.lookup n l = some v) : (n, v) ∈ l := by
  induction l with
  | nil => simp [List.lookup] at h
  | cons hd tl ih =>
    obtain ⟨k, w⟩ := hd
    by_cases hk : n = k
    · subst hk
      simp [List.lookup] at h
      simp [h]
    · have hb : (n == k) = false := beq_eq_false_iff_ne.mpr hk
      simp only [List.lookup, hb] at h
      exact List.mem_cons_of_mem _ (ih h)

theorem lookup_of_mem_nodup {α : Type} {l : List (String × α)} {n : String} {v : α}
    (hn : NodupKeys l) (h : (n, v) ∈ l) : List.lookup n l = some v := by
  induction l with
  | nil => simp at h
  | cons hd tl ih =>
    obtain ⟨k, w⟩ := hd
    rcases List.mem_cons.mp h with heq | hmem
    · cases heq
      simp [List.lookup]
    · have hk : n ≠ k := by
        rintro rfl
        have : n ∈ tl.map Prod.fst := List.mem_map.mpr ⟨(n, v), hmem, rfl⟩
        exact (List.nodup_cons.mp hn).1 this
      have hb : (n == k) = false := beq_eq_false_iff_ne.mpr hk
      simp only [List.lookup, hb]
      exact ih (List.nodup_cons.mp hn).2 hmem

theorem nodupKeys_append_single {α : Type} {l : List (String × α)} {n : String} (v : α)
    (hn : NodupKeys l) (h : List.lookup n l = none) : NodupKeys (l ++ [(n, v)]) := by
  unfold NodupKeys at *
  rw [List.map_append]
  simp only [List.map_cons, List.map_nil]
  rw [List.nodup_append]
  refine ⟨hn, List.nodup_singleton n, ?_⟩
  intro a ha hb
  simp at hb
  subst hb
  exact (lookup_none_iff_not_mem_keys l a).mp h ha

theorem checkRedef_ok_forall {name : String} {lt : Ty} {arm : Arm} {defs : Defs} {u : Unit}
    (h : checkRedef name lt arm defs = .ok u) :
    ∀ d, List.lookup name defs = some d → d.type = lt := by
  intro d hd
  by_cases ht : d.type = lt
  · exact ht
  · exfalso
    unfold checkRedef at h
    rw [hd] at h
    simp [ht] at h

theorem checkRedef_error_spec {name : String} {lt : Ty} {arm : Arm} {defs : Defs}
    {e : MergeErr} (h : checkRedef name lt arm defs = .error e) :
    ∃ d, List.lookup name defs = some d ∧ d.type ≠ lt ∧
      e = .liveinMismatch name lt arm d.type := by
  unfold checkRedef at h
  cases hd : List.lookup name defs with
  | none => rw [hd] at h; simp at h
  | some d =>
    rw [hd] at h
    by_cases ht : d.type = lt
    · simp [ht] at h
    · simp only [ht, if_false, if_neg ht, Except.error.injEq] at h
      exact ⟨d, rfl, ht, h.symm⟩

theorem mergeLiveins_pairs_extend :
    ∀ (ls : List (String × TLTensor)) (thenD elseD : Defs) (pairs : List (String × Ty))
      (out : Defs × Defs × List (String × Ty)),
    mergeLiveins ls thenD elseD pairs = .ok out →
    ∃ extra, out.2.2 = pairs ++ extra := by
  intro ls
  induction ls with
  | nil =>
    intro thenD elseD pairs out h
    simp only [mergeLiveins] at h
    injection h with h1
    subst h1
    exact ⟨[], by simp⟩
  | cons hd tail ih =>
    intro thenD elseD pairs out h
    obtain ⟨name, lv⟩ := hd
    simp only [mergeLiveins] at h
    cases hc1 : checkRedef name lv.type .thenArm thenD with
    | error e1 => simp only [hc1] at h; exact Except.noConfusion h
    | ok u1 =>
      simp only [hc1] at h
      cases hc2 : checkRedef name lv.type .elseArm elseD with
      | error e2 => simp only [hc2] at h; exact Except.noConfusion h
      | ok u2 =>
        simp only [hc2] at h
        cases hT : List.lookup name thenD with
        | some d =>
          cases hE : List.lookup name elseD with
          | some e =>
            simp only [hT, hE] at h
            obtain ⟨extra, hx⟩ := ih _ _ _ _ h
            exact ⟨(name, d.type) :: extra, by rw [hx]; simp⟩
          | none =>
            simp only [hT, hE] at h
            obtain ⟨extra, hx⟩ := ih _ _ _ _ h
            exact ⟨(name, d.type) :: extra, by rw [hx]; simp⟩
        | none =>
          cases hE : List.lookup name elseD with
          | some e =>
            simp only [hT, hE] at h
            obtain ⟨extra, hx⟩ := ih _ _ _ _ h
            exact ⟨(name, e.type) :: extra, by rw [hx]; simp⟩
          | none =>
            simp only [hT, hE] at h
            exact ih _ _ _ _ h

theorem mergeLiveins_cons_inv {name : String} {lv : TLTensor}
    {tail : List (String × TLTensor)} {thenD elseD : Defs}
    {pairs : List (String × Ty)} {out : Defs × Defs × List (String × Ty)}
    (h : mergeLiveins ((name, lv) :: tail) thenD elseD pairs = .ok out) :
    (∀ d, List.lookup name thenD = some d → d.type = lv.type) ∧
    (∀ d, List.lookup name elseD = some d → d.type = lv.type) ∧
    ((∃ d e, List.lookup name thenD = some d ∧ List.lookup name elseD = some e ∧
        mergeLiveins tail thenD elseD (pairs ++ [(name, d.type)]) = .ok out) ∨
     (∃ d, List.lookup name thenD = some d ∧ List.lookup name elseD = none ∧
        mergeLiveins tail thenD (elseD ++ [(name, lv)])
          (pairs ++ [(name, d.type)]) = .ok out) ∨
     (∃ e, List.lookup name thenD = none ∧ List.lookup name elseD = some e ∧
        mergeLiveins tail (thenD ++ [(name, lv)]) elseD
          (pairs ++ [(name, e.type)]) = .ok out) ∨
     (List.lookup name thenD = none ∧ List.lookup name elseD = none ∧
        mergeLiveins tail thenD elseD pairs = .ok out)) := by
  rw [show mergeLiveins ((name, lv) :: tail) thenD elseD pairs =
      (match checkRedef name lv.type .thenArm thenD with
       | .error e => .error e
       | .ok _ =>
         match checkRedef name lv.type .elseArm elseD with
         | .error e => .error e
         | .ok _ =>
           match List.lookup name thenD, List.lookup name elseD with
           | some d, some _ =>
             mergeLiveins tail thenD elseD (pairs ++ [(name, d.type)])
           | some d, none =>
             mergeLiveins tail thenD (elseD ++ [(name, lv)])
               (pairs ++ [(name, d.type)])
           | none, some e =>
             mergeLiveins tail (thenD ++ [(name, lv)]) elseD
               (pairs ++ [(name, e.type)])
           | none, none => mergeLiveins tail thenD elseD pairs) from rfl] at h
  cases hc1 : checkRedef name lv.type .thenArm thenD with
  | error e1 => rw [hc1] at h; exact Except.noConfusion h
  | ok u1 =>
    rw [hc1] at h
    cases hc2 : checkRedef name lv.type .elseArm elseD with
    | error e2 => rw [hc2] at h; exact Except.noConfusion h
    | ok u2 =>
      rw [hc2] at h
      refine ⟨checkRedef_ok_forall hc1, checkRedef_ok_forall hc2, ?_⟩
      cases hT : List.lookup name thenD with
      | some d =>
        cases hE : List.lookup name elseD with
        | some e =>
          rw [hT, hE] at h
          exact Or.inl ⟨d, e, rfl, rfl, h⟩
        | none =>
          rw [hT, hE] at h
          exact Or.inr (Or.inl ⟨d, rfl, rfl, h⟩)
      | none =>
        cases hE : List.lookup name elseD with
        | some e =>
          rw [hT, hE] at h
          exact Or.inr (Or.inr (Or.inl ⟨e, rfl, rfl, h⟩))
        | none =>
          rw [hT, hE] at h
          exact Or.inr (Or.inr (Or.inr ⟨rfl, rfl, h⟩))

theorem mergeLiveins_lookup_preserved :
    ∀ (ls : List (String × TLTensor)) (thenD elseD : Defs)
      (pairs : List (String × Ty)) (out : Defs × Defs × List (String × Ty)),
    mergeLiveins ls thenD elseD pairs = .ok out →
    ∀ n : String, n ∉ ls.map Prod.fst →
    List.lookup n out.1 = List.lookup n thenD ∧
    List.lookup n out.2.1 = List.lookup n elseD := by
  intro ls
  induction ls with
  | nil =>
    intro thenD elseD pairs out h n _
    simp only [mergeLiveins] at h
    injection h with h1
    subst h1
    exact ⟨rfl, rfl⟩
  | cons hd tail ih =>
    intro thenD elseD pairs out h n hn
    obtain ⟨name, lv⟩ := hd
    simp only [List.map_cons, List.mem_cons, not_or] at hn
    obtain ⟨hne, hntail⟩ := hn
    obtain ⟨-, -, hcase⟩ := mergeLiveins_cons_inv h
    rcases hcase with ⟨d, e, _, _, hrec⟩ | ⟨d, _, _, hrec⟩ | ⟨e, _, _, hrec⟩ |
      ⟨_, _, hrec⟩
    · exact ih _ _ _ _ hrec n hntail
    · obtain ⟨h1, h2⟩ := ih _ _ _ _ hrec n hntail
      exact ⟨h1, by rw [h2, lookup_append_single _ _ _ _ hne]⟩
    · obtain ⟨h1, h2⟩ := ih _ _ _ _ hrec n hntail
      exact ⟨by rw [h1, lookup_append_single _ _ _ _ hne], h2⟩
    · exact ih _ _ _ _ hrec n hntail

theorem mergeLiveins_redef_type :
    ∀ (ls : List (String × TLTensor)) (thenD elseD : Defs)
      (pairs : List (String × Ty)) (out : Defs × Defs × List (String × Ty)),
    mergeLiveins ls thenD elseD pairs = .ok out → NodupKeys ls →
    ∀ (n : String) (lv : TLTensor), (n, lv) ∈ ls →
    (∀ d, List.lookup n thenD = some d → d.type = lv.type) ∧
    (∀ d, List.lookup n elseD = some d → d.type = lv.type) := by
  intro ls
  induction ls with
  | nil => intro thenD elseD pairs out h hnd n lv hmem; simp at hmem
  | cons hd tail ih =>
    intro thenD elseD pairs out h hnd n lv hmem
    obtain ⟨name, lv0⟩ := hd
    obtain ⟨hck1, hck2, hcase⟩ := mergeLiveins_cons_inv h
    rcases List.mem_cons.mp hmem with heq | hmemtail
    · cases heq
      exact ⟨hck1, hck2⟩
    · have hne : n ≠ name := by
        rintro rfl
        have : n ∈ tail.map Prod.fst := List.mem_map.mpr ⟨(n, lv), hmemtail, rfl⟩
        exact (List.nodup_cons.mp hnd).1 this
      have hndtail : NodupKeys tail := (List.nodup_cons.mp hnd).2
      rcases hcase with ⟨d, e, _, _, hrec⟩ | ⟨d, _, _, hrec⟩ | ⟨e, _, _, hrec⟩ |
        ⟨_, _, hrec⟩
      · exact ih _ _ _ _ hrec hndtail n lv hmemtail
      · obtain ⟨p1, p2⟩ := ih _ _ _ _ hrec hndtail n lv hmemtail
        refine ⟨p1, ?_⟩
        intro d0 hd0
        exact p2 d0 (by rw [lookup_append_single _ _ _ _ hne]; exact hd0)
      · obtain ⟨p1, p2⟩ := ih _ _ _ _ hrec hndtail n lv hmemtail
        refine ⟨?_, p2⟩
        intro d0 hd0
        exact p1 d0 (by rw [lookup_append_single _ _ _ _ hne]; exact hd0)
      · exact ih _ _ _ _ hrec hndtail n lv hmemtail

theorem mergeLiveins_pairs_mem :
    ∀ (ls : List (String × TLTensor)) (thenD elseD : Defs)
      (pairs : List (String × Ty)) (out : Defs × Defs × List (String × Ty)),
    mergeLiveins ls thenD elseD pairs = .ok out →
    ∀ p, p ∈ out.2.2 → p ∈ pairs ∨ p.1 ∈ ls.map Prod.fst := by
  intro ls
  induction ls with
  | nil =>
    intro thenD elseD pairs out h p hp
    simp only [mergeLiveins] at h
    injection h with h1
    subst h1
    exact Or.inl hp
  | cons hd tail ih =>
    intro thenD elseD pairs out h p hp
    obtain ⟨name, lv⟩ := hd
    obtain ⟨-, -, hcase⟩ := mergeLiveins_cons_inv h
    have step : ∀ (ty : Ty), p ∈ pairs ++ [(name, ty)] ∨ p.1 ∈ tail.map Prod.fst →
        p ∈ pairs ∨ p.1 ∈ (name, lv).1 :: tail.map Prod.fst := by
      intro ty hor
      rcases hor with hin | hin
      · rcases List.mem_append.mp hin with hin | hin
        · exact Or.inl hin
        · simp at hin
          subst hin
          exact Or.inr (by simp)
      · exact Or.inr (List.mem_cons_of_mem _ hin)
    rcases hcase with ⟨d, e, _, _, hrec⟩ | ⟨d, _, _, hrec⟩ | ⟨e, _, _, hrec⟩ |
      ⟨_, _, hrec⟩
    · exact step d.type (ih _ _ _ _ hrec p hp)
    · exact step d.type (ih _ _ _ _ hrec p hp)
    · exact step e.type (ih _ _ _ _ hrec p hp)
    · rcases ih _ _ _ _ hrec p hp with hin | hin
      · exact Or.inl hin
      · exact Or.inr (List.mem_cons_of_mem _ hin)

theorem mergeLiveins_pairs_nodup :
    ∀ (ls : List (String × TLTensor)) (thenD elseD : Defs)
      (pairs : List (String × Ty)) (out : Defs × Defs × List (String × Ty)),
    mergeLiveins ls thenD elseD pairs = .ok out → NodupKeys ls →
    (pairs.map Prod.fst).Nodup →
    (∀ k, k ∈ pairs.map Prod.fst → k ∉ ls.map Prod.fst) →
    (out.2.2.map Prod.fst).Nodup := by
  intro ls
  induction ls with
  | nil =>
    intro thenD elseD pairs out h _ hp _
    simp only [mergeLiveins] at h
    injection h with h1
    subst h1
    exact hp
  | cons hd tail ih =>
    intro thenD elseD pairs out h hnd hp hdisj
    obtain ⟨name, lv⟩ := hd
    obtain ⟨-, -, hcase⟩ := mergeLiveins_cons_inv h
    have hnotin : name ∉ pairs.map Prod.fst := by
      intro hk
      exact hdisj name hk (by simp)
    have hstepnodup : ∀ (ty : Ty), ((pairs ++ [(name, ty)]).map Prod.fst).Nodup := by
      intro ty
      rw [List.map_append]
      simp only [List.map_cons, List.map_nil]
      rw [List.nodup_append]
      refine ⟨hp, List.nodup_singleton _, ?_⟩
      intro a ha hb
      simp at hb
      subst hb
      exact hnotin ha
    have hstepdisj : ∀ (ty : Ty), ∀ k, k ∈ (pairs ++ [(name, ty)]).map Prod.fst →
        k ∉ tail.map Prod.fst := by
      intro ty k hk
      rw [List.map_append] at hk
      rcases List.mem_append.mp hk with hk | hk
      · intro hkt
        exact hdisj k hk (List.mem_cons_of_mem _ hkt)
      · simp at hk
        subst hk
        exact (List.nodup_cons.mp hnd).1
    have hndtail : NodupKeys tail := (List.nodup_cons.mp hnd).2
    have hdisjtail : ∀ k, k ∈ pairs.map Prod.fst → k ∉ tail.map Prod.fst := by
      intro k hk hkt
      exact hdisj k hk (List.mem_cons_of_mem _ hkt)
    rcases hcase with ⟨d, e, _, _, hrec⟩ | ⟨d, _, _, hrec⟩ | ⟨e, _, _, hrec⟩ |
      ⟨_, _, hrec⟩
    · exact ih _ _ _ _ hrec hndtail (hstepnodup d.type) (hstepdisj d.type)
    · exact ih _ _ _ _ hrec hndtail (hstepnodup d.type) (hstepdisj d.type)
    · exact ih _ _ _ _ hrec hndtail (hstepnodup e.type) (hstepdisj e.type)
    · exact ih _ _ _ _ hrec hndtail hp hdisjtail

theorem mergeLiveins_defs_nodup :
    ∀ (ls : List (String × TLTensor)) (thenD elseD : Defs)
      (pairs : List (String × Ty)) (out : Defs × Defs × List (String × Ty)),
    mergeLiveins ls thenD elseD pairs = .ok out →
    NodupKeys thenD → NodupKeys elseD →
    NodupKeys out.1 ∧ NodupKeys out.2.1 := by
  intro ls
  induction ls with
  | nil =>
    intro thenD elseD pairs out h h1 h2
    simp only [mergeLiveins] at h
    injection h with hh
    subst hh
    exact ⟨h1, h2⟩
  | cons hd tail ih =>
    intro thenD elseD pairs out h h1 h2
    obtain ⟨name, lv⟩ := hd
    obtain ⟨-, -, hcase⟩ := mergeLiveins_cons_inv h
    rcases hcase with ⟨d, e, _, _, hrec⟩ | ⟨d, _, hE, hrec⟩ | ⟨e, hT, _, hrec⟩ |
      ⟨_, _, hrec⟩
    · exact ih _ _ _ _ hrec h1 h2
    · exact ih _ _ _ _ hrec h1 (nodupKeys_append_single lv h2 hE)
    · exact ih _ _ _ _ hrec (nodupKeys_append_single lv h1 hT) h2
    · exact ih _ _ _ _ hrec h1 h2

theorem mergeLiveins_livein_in_pairs :
    ∀ (ls : List (String × TLTensor)) (thenD elseD : Defs)
      (pairs : List (String × Ty)) (out : Defs × Defs × List (String × Ty)),
    mergeLiveins ls thenD elseD pairs = .ok out → NodupKeys ls →
    ∀ (n : String) (lv : TLTensor), (n, lv) ∈ ls →
    (n ∈ out.1.map Prod.fst ∨ n ∈ out.2.1.map Prod.fst) →
    n ∈ out.2.2.map Prod.fst := by
  intro ls
  induction ls with
  | nil => intro thenD elseD pairs out h _ n lv hmem; simp at hmem
  | cons hd tail ih =>
    intro thenD elseD pairs out h hnd n lv hmem hdefs
    obtain ⟨name, lv0⟩ := hd
    obtain ⟨-, -, hcase⟩ := mergeLiveins_cons_inv h
    have hpref : ∀ (ty : Ty) (thenD1 elseD1 : Defs),
        mergeLiveins tail thenD1 elseD1 (pairs ++ [(name, ty)]) = .ok out →
        name ∈ out.2.2.map Prod.fst := by
      intro ty thenD1 elseD1 hrec
      obtain ⟨extra, hx⟩ := mergeLiveins_pairs_extend _ _ _ _ _ hrec
      rw [hx]
      rw [List.map_append]
      apply List.mem_append.mpr
      left
      rw [List.map_append]
      simp
    rcases List.mem_cons.mp hmem with heq | hmemtail
    · cases heq
      rcases hcase with ⟨d, e, _, _, hrec⟩ | ⟨d, _, _, hrec⟩ | ⟨e, _, _, hrec⟩ |
        ⟨hT, hE, hrec⟩
      · exact hpref d.type _ _ hrec
      · exact hpref d.type _ _ hrec
      · exact hpref e.type _ _ hrec
      · exfalso
        have hntail : n ∉ tail.map Prod.fst := (List.nodup_cons.mp hnd).1
        obtain ⟨hp1, hp2⟩ := mergeLiveins_lookup_preserved _ _ _ _ _ hrec n hntail
        rcases hdefs with hin | hin
        · rw [← lookup_none_iff_not_mem_keys] at hntail
          have : List.lookup n out.1 = none := by rw [hp1]; exact hT
          exact (lookup_none_iff_not_mem_keys _ _).mp this hin
        · have : List.lookup n out.2.1 = none := by rw [hp2]; exact hE
          exact (lookup_none_iff_not_mem_keys _ _).mp this hin
    · have hndtail : NodupKeys tail := (List.nodup_cons.mp hnd).2
      rcases hcase with ⟨d, e, _, _, hrec⟩ | ⟨d, _, _, hrec⟩ | ⟨e, _, _, hrec⟩ |
        ⟨_, _, hrec⟩ <;>
        exact ih _ _ _ _ hrec hndtail n lv hmemtail hdefs

theorem mergeLiveins_cons_inv_err {name : String} {lv : TLTensor}
    {tail : List (String × TLTensor)} {thenD elseD : Defs}
    {pairs : List (String × Ty)} {e : MergeErr}
    (h : mergeLiveins ((name, lv) :: tail) thenD elseD pairs = .error e) :
    checkRedef name lv.type .thenArm thenD = .error e ∨
    checkRedef name lv.type .elseArm elseD = .error e ∨
    ((∃ d eT, List.lookup name thenD = some d ∧ List.lookup name elseD = some eT ∧
        mergeLiveins tail thenD elseD (pairs ++ [(name, d.type)]) = .error e) ∨
     (∃ d, List.lookup name thenD = some d ∧ List.lookup name elseD = none ∧
        mergeLiveins tail thenD (elseD ++ [(name, lv)])
          (pairs ++ [(name, d.type)]) = .error e) ∨
     (∃ eT, List.lookup name thenD = none ∧ List.lookup name elseD = some eT ∧
        mergeLiveins tail (thenD ++ [(name, lv)]) elseD
          (pairs ++ [(name, eT.type)]) = .error e) ∨
     (List.lookup name thenD = none ∧ List.lookup name elseD = none ∧
        mergeLiveins tail thenD elseD pairs = .error e)) := by
  rw [show mergeLiveins ((name, lv) :: tail) thenD elseD pairs =
      (match checkRedef name lv.type .thenArm thenD with
       | .error e => .error e
       | .ok _ =>
         match checkRedef name lv.type .elseArm elseD with
         | .error e => .error e
         | .ok _ =>
           match List.lookup name thenD, List.lookup name elseD with
           | some d, some _ =>
             mergeLiveins tail thenD elseD (pairs ++ [(name, d.type)])
           | some d, none =>
             mergeLiveins tail thenD (elseD ++ [(name, lv)])
               (pairs ++ [(name, d.type)])
           | none, some e =>
             mergeLiveins tail (thenD ++ [(name, lv)]) elseD
               (pairs ++ [(name, e.type)])
           | none, none => mergeLiveins tail thenD elseD pairs) from rfl] at h
  cases hc1 : checkRedef name lv.type .thenArm thenD with
  | error e1 =>
    rw [hc1] at h
    injection h with h1
    exact Or.inl (by rw [h1])
  | ok u1 =>
    rw [hc1] at h
    cases hc2 : checkRedef name lv.type .elseArm elseD with
    | error e2 =>
      rw [hc2] at h
      injection h with h1
      exact Or.inr (Or.inl (by rw [h1]))
    | ok u2 =>
      rw [hc2] at h
      refine Or.inr (Or.inr ?_)
      cases hT : List.lookup name thenD with
      | some d =>
        cases hE : List.lookup name elseD with
        | some eT =>
          rw [hT, hE] at h
          exact Or.inl ⟨d, eT, rfl, rfl, h⟩
        | none =>
          rw [hT, hE] at h
          exact Or.inr (Or.inl ⟨d, rfl, rfl, h⟩)
      | none =>
        cases hE : List.lookup name elseD with
        | some eT =>
          rw [hT, hE] at h
          exact Or.inr (Or.inr (Or.inl ⟨eT, rfl, rfl, h⟩))
        | none =>
          rw [hT, hE] at h
          exact Or.inr (Or.inr (Or.inr ⟨rfl, rfl, h⟩))

theorem mergeLiveins_error_spec :
    ∀ (ls : List (String × TLTensor)) (thenD elseD : Defs)
      (pairs : List (String × Ty)) (e : MergeErr),
    mergeLiveins ls thenD elseD pairs = .error e → NodupKeys ls →
    ∀ (n : String) (lt : Ty) (a : Arm) (rt : Ty), e = .liveinMismatch n lt a rt →
    (∃ lv, (n, lv) ∈ ls ∧ lv.type = lt) ∧ rt ≠ lt ∧
    (a = .thenArm → ∃ d, List.lookup n thenD = some d ∧ d.type = rt) ∧
    (a = .elseArm → ∃ d, List.lookup n elseD = some d ∧ d.type = rt) := by
  intro ls
  induction ls with
  | nil =>
    intro thenD elseD pairs e h
    simp only [mergeLiveins] at h
    exact Except.noConfusion h
  | cons hd tail ih =>
    intro thenD elseD pairs e h hnd n lt a rt herr
    obtain ⟨name, lv0⟩ := hd
    subst herr
    have hndtail : NodupKeys tail := (List.nodup_cons.mp hnd).2
    have hheadnotin : name ∉ tail.map Prod.fst := by
      have := (List.nodup_cons.mp hnd).1
      simpa using this
    have htransne : ∀ (m : String), m ∈ tail.map Prod.fst → m ≠ name := by
      intro m hm heq
      subst heq
      exact hheadnotin hm
    have htailcase : ∀ (thenD1 elseD1 : Defs) (pairs1 : List (String × Ty)),
        mergeLiveins tail thenD1 elseD1 pairs1 =
          .error (.liveinMismatch n lt a rt) →
        (∀ m, m ∈ tail.map Prod.fst →
          List.lookup m thenD1 = List.lookup m thenD ∧
          List.lookup m elseD1 = List.lookup m elseD) →
        (∃ lv, (n, lv) ∈ (name, lv0) :: tail ∧ lv.type = lt) ∧ rt ≠ lt ∧
        (a = .thenArm → ∃ d, List.lookup n thenD = some d ∧ d.type = rt) ∧
        (a = .elseArm → ∃ d, List.lookup n elseD = some d ∧ d.type = rt) := by
      intro thenD1 elseD1 pairs1 hrec htrans
      obtain ⟨⟨lv, hlvmem, hlvty⟩, hrtne, hthen, helse⟩ :=
        ih _ _ _ _ hrec hndtail n lt a rt rfl
      have hnkeys : n ∈ tail.map Prod.fst := List.mem_map.mpr ⟨(n, lv), hlvmem, rfl⟩
      obtain ⟨ht1, ht2⟩ := htrans n hnkeys
      refine ⟨⟨lv, List.mem_cons_of_mem _ hlvmem, hlvty⟩, hrtne, ?_, ?_⟩
      · intro ha
        obtain ⟨d, hd1, hd2⟩ := hthen ha
        exact ⟨d, by rw [← ht1]; exact hd1, hd2⟩
      · intro ha
        obtain ⟨d, hd1, hd2⟩ := helse ha
        exact ⟨d, by rw [← ht2]; exact hd1, hd2⟩
    have htransid : ∀ (m : String), m ∈ tail.map Prod.fst →
        List.lookup m thenD = List.lookup m thenD ∧
        List.lookup m elseD = List.lookup m elseD := fun m _ => ⟨rfl, rfl⟩
    rcases mergeLiveins_cons_inv_err h with hck | hck | hcase
    · obtain ⟨d, hd1, hd2, hshape⟩ := checkRedef_error_spec hck
      rw [MergeErr.liveinMismatch.injEq] at hshape
      obtain ⟨rfl, rfl, rfl, rfl⟩ := hshape
      refine ⟨⟨lv0, by simp, rfl⟩, fun hh => hd2 hh, fun _ => ⟨d, hd1, rfl⟩, ?_⟩
      intro ha
      exact absurd ha (by simp)
    · obtain ⟨d, hd1, hd2, hshape⟩ := checkRedef_error_spec hck
      rw [MergeErr.liveinMismatch.injEq] at hshape
      obtain ⟨rfl, rfl, rfl, rfl⟩ := hshape
      refine ⟨⟨lv0, by simp, rfl⟩, fun hh => hd2 hh, ?_, fun _ => ⟨d, hd1, rfl⟩⟩
      intro ha
      exact absurd ha (by simp)
    · rcases hcase with ⟨d, eT, _, _, hrec⟩ | ⟨d, _, _, hrec⟩ | ⟨eT, _, _, hrec⟩ |
        ⟨_, _, hrec⟩
      · exact htailcase _ _ _ hrec htransid
      · exact htailcase _ _ _ hrec (fun m hm =>
          ⟨rfl, lookup_append_single _ _ _ _ (htransne m hm)⟩)
      · exact htailcase _ _ _ hrec (fun m hm =>
          ⟨lookup_append_single _ _ _ _ (htransne m hm), rfl⟩)
      · exact htailcase _ _ _ hrec htransid

theorem mergeLiveins_error_kind :
    ∀ (ls : List (String × TLTensor)) (thenD elseD : Defs)
      (pairs : List (String × Ty)) (e : MergeErr),
    mergeLiveins ls thenD elseD pairs = .error e →
    ∃ n lt a rt, e = .liveinMismatch n lt a rt := by
  intro ls
  induction ls with
  | nil =>
    intro thenD elseD pairs e h
    simp only [mergeLiveins] at h
    exact Except.noConfusion h
  | cons hd tail ih =>
    intro thenD elseD pairs e h
    obtain ⟨name, lv⟩ := hd
    rcases mergeLiveins_cons_inv_err h with hck | hck | hcase
    · obtain ⟨d, _, _, hshape⟩ := checkRedef_error_spec hck
      exact ⟨name, lv.type, .thenArm, d.type, hshape⟩
    · obtain ⟨d, _, _, hshape⟩ := checkRedef_error_spec hck
      exact ⟨name, lv.type, .elseArm, d.type, hshape⟩
    · rcases hcase with ⟨d, eT, _, _, hrec⟩ | ⟨d, _, _, hrec⟩ | ⟨eT, _, _, hrec⟩ |
        ⟨_, _, hrec⟩ <;> exact ih _ _ _ _ hrec

theorem contains_true_of_mem {l : List String} {a : String} (h : a ∈ l) :
    l.contains a = true := by simpa using h

theorem mem_of_contains_true {l : List String} {a : String} (h : l.contains a = true) :
    a ∈ l := by simpa using h

theorem mergeCommon_pairs_extend :
    ∀ (entries : List (String × TLTensor)) (elseD : Defs)
      (pairs pairs2 : List (String × Ty)),
    mergeCommon entries elseD pairs = .ok pairs2 → ∃ extra, pairs2 = pairs ++ extra := by
  intro entries
  induction entries with
  | nil =>
    intro elseD pairs pairs2 h
    simp only [mergeCommon] at h
    injection h with h1
    exact ⟨[], by rw [h1]; simp⟩
  | cons hd tail ih =>
    intro elseD pairs pairs2 h
    obtain ⟨name, t⟩ := hd
    simp only [mergeCommon] at h
    cases hE : List.lookup name elseD with
    | none =>
      simp only [hE] at h
      exact ih _ _ _ h
    | some e =>
      simp only [hE] at h
      by_cases hc : ((pairs.map Prod.fst).contains name) = true
      · rw [if_pos hc] at h
        exact ih _ _ _ h
      · rw [if_neg hc] at h
        by_cases hty : t.type = e.type
        · rw [if_pos hty] at h
          obtain ⟨extra, hx⟩ := ih _ _ _ h
          exact ⟨(name, t.type) :: extra, by rw [hx]; simp⟩
        · rw [if_neg hty] at h
          exact Except.noConfusion h

theorem mergeCommon_spec :
    ∀ (entries : List (String × TLTensor)) (elseD : Defs)
      (pairs pairs2 : List (String × Ty)),
    mergeCommon entries elseD pairs = .ok pairs2 → NodupKeys entries →
    ∀ (n : String) (t e : TLTensor), (n, t) ∈ entries →
    List.lookup n elseD = some e → n ∉ pairs.map Prod.fst →
    t.type = e.type ∧ (n, t.type) ∈ pairs2 := by
  intro entries
  induction entries with
  | nil => intro elseD pairs pairs2 h hnd n t e hmem; simp at hmem
  | cons hd tail ih =>
    intro elseD pairs pairs2 h hnd n t e hmem helse hnp
    obtain ⟨name, tm⟩ := hd
    have hndtail : NodupKeys tail := (List.nodup_cons.mp hnd).2
    simp only [mergeCommon] at h
    rcases List.mem_cons.mp hmem with heq | hmemtail
    · cases heq
      simp only [helse] at h
      have hcont : ((pairs.map Prod.fst).contains n) = true → False := by
        intro hcc
        exact hnp (mem_of_contains_true hcc)
      rw [if_neg hcont] at h
      by_cases hty : t.type = e.type
      · rw [if_pos hty] at h
        obtain ⟨extra, hx⟩ := mergeCommon_pairs_extend _ _ _ _ h
        refine ⟨hty, ?_⟩
        rw [hx]
        exact List.mem_append.mpr (Or.inl (by simp))
      · rw [if_neg hty] at h
        exact Except.noConfusion h
    · have hne : n ≠ name := by
        intro heq
        subst heq
        have hin : n ∈ tail.map Prod.fst := List.mem_map.mpr ⟨(n, t), hmemtail, rfl⟩
        have h0 : n ∉ tail.map Prod.fst := by
          have h1 := (List.nodup_cons.mp hnd).1
          simpa using h1
        exact h0 hin
      cases hE : List.lookup name elseD with
      | none =>
        simp only [hE] at h
        exact ih _ _ _ h hndtail n t e hmemtail helse hnp
      | some em =>
        simp only [hE] at h
        by_cases hc : ((pairs.map Prod.fst).contains name) = true
        · rw [if_pos hc] at h
          exact ih _ _ _ h hndtail n t e hmemtail helse hnp
        · rw [if_neg hc] at h
          by_cases hty : tm.type = em.type
          · rw [if_pos hty] at h
            refine ih _ _ _ h hndtail n t e hmemtail helse ?_
            rw [List.map_append]
            intro hin
            rcases List.mem_append.mp hin with hin | hin
            · exact hnp hin
            · simp at hin
              exact hne hin
          · rw [if_neg hty] at h
            exact Except.noConfusion h

theorem mergeCommon_pairs_nodup :
    ∀ (entries : List (String × TLTensor)) (elseD : Defs)
      (pairs pairs2 : List (String × Ty)),
    mergeCommon entries elseD pairs = .ok pairs2 →
    (pairs.map Prod.fst).Nodup → (pairs2.map Prod.fst).Nodup := by
  intro entries
  induction entries with
  | nil =>
    intro elseD pairs pairs2 h hp
    simp only [mergeCommon] at h
    injection h with h1
    rw [← h1]
    exact hp
  | cons hd tail ih =>
    intro elseD pairs pairs2 h hp
    obtain ⟨name, tm⟩ := hd
    simp only [mergeCommon] at h
    cases hE : List.lookup name elseD with
    | none =>
      simp only [hE] at h
      exact ih _ _ _ h hp
    | some em =>
      simp only [hE] at h
      by_cases hc : ((pairs.map Prod.fst).contains name) = true
      · rw [if_pos hc] at h
        exact ih _ _ _ h hp
      · rw [if_neg hc] at h
        by_cases hty : tm.type = em.type
        · rw [if_pos hty] at h
          refine ih _ _ _ h ?_
          rw [List.map_append]
          simp only [List.map_cons, List.map_nil]
          rw [List.nodup_append]
          refine ⟨hp, List.nodup_singleton _, ?_⟩
          intro a ha hb
          simp at hb
          subst hb
          exact hc (contains_true_of_mem ha)
        · rw [if_neg hty] at h
          exact Except.noConfusion h

theorem mergeCommon_error_spec :
    ∀ (entries : List (String × TLTensor)) (elseD : Defs)
      (pairs : List (String × Ty)) (e : MergeErr),
    mergeCommon entries elseD pairs = .error e →
    ∃ n t1 t2, e = .armMismatch n t1 t2 ∧ t1 ≠ t2 ∧
      (∃ tE : TLTensor, (n, tE) ∈ entries ∧ tE.type = t1) ∧
      (∃ eE : TLTensor, List.lookup n elseD = some eE ∧ eE.type = t2) ∧
      n ∉ pairs.map Prod.fst := by
  intro entries
  induction entries with
  | nil =>
    intro elseD pairs e h
    simp only [mergeCommon] at h
    exact Except.noConfusion h
  | cons hd tail ih =>
    intro elseD pairs e h
    obtain ⟨name, tm⟩ := hd
    simp only [mergeCommon] at h
    have hlift : ∀ (pairs1 : List (String × Ty)),
        mergeCommon tail elseD pairs1 = .error e →
        (∀ k, k ∈ pairs.map Prod.fst → k ∈ pairs1.map Prod.fst) →
        ∃ n t1 t2, e = .armMismatch n t1 t2 ∧ t1 ≠ t2 ∧
          (∃ tE : TLTensor, (n, tE) ∈ (name, tm) :: tail ∧ tE.type = t1) ∧
          (∃ eE : TLTensor, List.lookup n elseD = some eE ∧ eE.type = t2) ∧
          n ∉ pairs.map Prod.fst := by
      intro pairs1 hrec hsub
      obtain ⟨n, t1, t2, hsh, hne, ⟨tE, htE, htEty⟩, hee, hnp⟩ := ih _ _ _ hrec
      exact ⟨n, t1, t2, hsh, hne, ⟨tE, List.mem_cons_of_mem _ htE, htEty⟩, hee,
        fun hk => hnp (hsub n hk)⟩
    cases hE : List.lookup name elseD with
    | none =>
      simp only [hE] at h
      exact hlift _ h (fun k hk => hk)
    | some em =>
      simp only [hE] at h
      by_cases hc : ((pairs.map Prod.fst).contains name) = true
      · rw [if_pos hc] at h
        exact hlift _ h (fun k hk => hk)
      · rw [if_neg hc] at h
        by_cases hty : tm.type = em.type
        · rw [if_pos hty] at h
          refine hlift _ h ?_
          intro k hk
          rw [List.map_append]
          exact List.mem_append.mpr (Or.inl hk)
        · rw [if_neg hty] at h
          injection h with h1
          refine ⟨name, tm.type, em.type, h1.symm, hty, ⟨tm, by simp, rfl⟩,
            ⟨em, hE, rfl⟩, ?_⟩
          intro hk
          exact hc (contains_true_of_mem hk)

theorem applyMergeScope_not_mem :
    ∀ (pairs : List (String × Ty)) (sc : Defs) (base : Nat) (n : String),
    n ∉ pairs.map Prod.fst →
    List.lookup n (applyMergeScope sc pairs base) = List.lookup n sc := by
  intro pairs
  induction pairs with
  | nil => intro sc base n _; rfl
  | cons hd tail ih =>
    intro sc base n hn
    obtain ⟨m, ty⟩ := hd
    simp only [List.map_cons, List.mem_cons, not_or] at hn
    obtain ⟨hne, hntail⟩ := hn
    show List.lookup n (applyMergeScope (dictSet sc m ⟨base, ty⟩) tail (base + 1)) = _
    rw [ih _ _ _ hntail, lookup_dictSet_other _ _ _ _ hne]

theorem applyMergeScope_mem :
    ∀ (pairs : List (String × Ty)) (sc : Defs) (base : Nat) (n : String) (ty : Ty),
    (pairs.map Prod.fst).Nodup → (n, ty) ∈ pairs →
    ∃ v, List.lookup n (applyMergeScope sc pairs base) = some v ∧ v.type = ty := by
  intro pairs
  induction pairs with
  | nil => intro sc base n ty _ hmem; simp at hmem
  | cons hd tail ih =>
    intro sc base n ty hnd hmem
    obtain ⟨m, tym⟩ := hd
    rcases List.mem_cons.mp hmem with heq | hmemtail
    · cases heq
      have hntail : n ∉ tail.map Prod.fst := by
        have h0 := List.nodup_cons.mp hnd
        simpa using h0.1
      show ∃ v, List.lookup n (applyMergeScope (dictSet sc n ⟨base, ty⟩) tail (base + 1))
          = some v ∧ v.type = ty
      rw [applyMergeScope_not_mem _ _ _ _ hntail, lookup_dictSet_self]
      exact ⟨⟨base, ty⟩, rfl, rfl⟩
    · have hndtail : (tail.map Prod.fst).Nodup := (List.nodup_cons.mp hnd).2
      exact ih _ _ _ _ hndtail hmemtail

/-- Claim C1: in the if/else merge of `visit_then_else_blocks`, (i) every
live-in redefined in an arm must keep its live-in type, (ii) every name
defined in both arms but absent from the live-ins must have equal types in
the two arms and becomes a merge value, bound after the conditional to a
fresh value of the agreed type; any disagreement aborts the merge with an
error carrying the offending name and the two conflicting types. -/
theorem c1_branch_type_merge (liveins thenDefs elseDefs lscope : Defs) (base : Nat)
    (hLive : NodupKeys liveins) (hThen : NodupKeys thenDefs)
    (hElse : NodupKeys elseDefs) :
    (∀ thenD elseD pairs,
      visit_then_else_blocks_merge liveins thenDefs elseDefs =
        .ok (thenD, elseD, pairs) →
      (∀ (n : String) (lv d : TLTensor), List.lookup n liveins = some lv →
        (List.lookup n thenDefs = some d ∨ List.lookup n elseDefs = some d) →
        d.type = lv.type) ∧
      (∀ (n : String) (t e : TLTensor), List.lookup n liveins = none →
        List.lookup n thenDefs = some t → List.lookup n elseDefs = some e →
        t.type = e.type ∧ (n, t.type) ∈ pairs ∧
        ∃ v, List.lookup n (applyMergeScope lscope pairs base) = some v ∧
          v.type = t.type)) ∧
    (∀ err, visit_then_else_blocks_merge liveins thenDefs elseDefs = .error err →
      (∀ (n : String) (lt : Ty) (a : Arm) (rt : Ty), err = .liveinMismatch n lt a rt →
        rt ≠ lt ∧ (∃ lv, List.lookup n liveins = some lv ∧ lv.type = lt) ∧
        (a = .thenArm → ∃ d, List.lookup n thenDefs = some d ∧ d.type = rt) ∧
        (a = .elseArm → ∃ d, List.lookup n elseDefs = some d ∧ d.type = rt)) ∧
      (∀ (n : String) (t1 t2 : Ty), err = .armMismatch n t1 t2 →
        t1 ≠ t2 ∧ List.lookup n liveins = none ∧
        (∃ d, List.lookup n thenDefs = some d ∧ d.type = t1) ∧
        (∃ e, List.lookup n elseDefs = some e ∧ e.type = t2))) := by
  constructor
  · intro thenD elseD pairs h
    unfold visit_then_else_blocks_merge at h
    cases hml : mergeLiveins liveins thenDefs elseDefs [] with
    | error e =>
      simp only [hml] at h
      exact Except.noConfusion h
    | ok out =>
      obtain ⟨thenD1, elseD1, pairs1⟩ := out
      simp only [hml] at h
      cases hmc : mergeCommon thenD1 elseD1 pairs1 with
      | error e =>
        simp only [hmc] at h
        exact Except.noConfusion h
      | ok pairs2 =>
        simp only [hmc] at h
        injection h with h1
        cases h1
        constructor
        · intro n lv d hlv hdisj
          have hmem : (n, lv) ∈ liveins := lookup_some_mem hlv
          obtain ⟨p1, p2⟩ := mergeLiveins_redef_type _ _ _ _ _ hml hLive n lv hmem
          rcases hdisj with hd | hd
          · exact p1 d hd
          · exact p2 d hd
        · intro n t e hln hlt hle
          have hnkeys : n ∉ liveins.map Prod.fst :=
            (lookup_none_iff_not_mem_keys _ _).mp hln
          obtain ⟨hp1, hp2⟩ :=
            mergeLiveins_lookup_preserved _ _ _ _ _ hml n hnkeys
          have hlook1 : List.lookup n thenD = some t := by rw [hp1]; exact hlt
          have hlook2 : List.lookup n elseD = some e := by rw [hp2]; exact hle
          obtain ⟨hnd1, hnd2⟩ :=
            mergeLiveins_defs_nodup _ _ _ _ _ hml hThen hElse
          have hmemthen : (n, t) ∈ thenD := lookup_some_mem hlook1
          have hnp : n ∉ pairs1.map Prod.fst := by
            intro hin
            obtain ⟨⟨n2, ty2⟩, hpmem, heq⟩ := List.mem_map.mp hin
            subst heq
            rcases mergeLiveins_pairs_mem _ _ _ _ _ hml _ hpmem with hin2 | hin2
            · simp at hin2
            · exact hnkeys hin2
          obtain ⟨hty, hmem2⟩ :=
            mergeCommon_spec _ _ _ _ hmc hnd1 n t e hmemthen hlook2 hnp
          have hpnodup1 : (pairs1.map Prod.fst).Nodup := by
            refine mergeLiveins_pairs_nodup _ _ _ _ _ hml hLive (by simp) ?_
            intro k hk
            simp at hk
          have hpnodup2 : (pairs.map Prod.fst).Nodup :=
            mergeCommon_pairs_nodup _ _ _ _ hmc hpnodup1
          obtain ⟨v, hv, hvty⟩ :=
            applyMergeScope_mem _ lscope base n t.type hpnodup2 hmem2
          exact ⟨hty, hmem2, v, hv, hvty⟩
  · intro err h
    unfold visit_then_else_blocks_merge at h
    cases hml : mergeLiveins liveins thenDefs elseDefs [] with
    | error e =>
      simp only [hml] at h
      injection h with h1
      subst h1
      constructor
      · intro n lt a rt herr
        obtain ⟨⟨lv, hlvmem, hlvty⟩, hrtne, hthen, helse⟩ :=
          mergeLiveins_error_spec _ _ _ _ _ hml hLive n lt a rt herr
        exact ⟨hrtne, ⟨lv, lookup_of_mem_nodup hLive hlvmem, hlvty⟩, hthen, helse⟩
      · intro n t1 t2 herr
        obtain ⟨n2, lt2, a2, rt2, hshape⟩ := mergeLiveins_error_kind _ _ _ _ _ hml
        rw [herr] at hshape
        exact MergeErr.noConfusion hshape
    | ok out =>
      obtain ⟨thenD1, elseD1, pairs1⟩ := out
      simp only [hml] at h
      cases hmc : mergeCommon thenD1 elseD1 pairs1 with
      | ok pairs2 =>
        simp only [hmc] at h
        exact Except.noConfusion h
      | error e2 =>
        simp only [hmc] at h
        injection h with h1
        subst h1
        constructor
        · intro n lt a rt herr
          obtain ⟨n2, t12, t22, hsh, -, -, -, -⟩ := mergeCommon_error_spec _ _ _ _ hmc
          rw [herr] at hsh
          exact MergeErr.noConfusion hsh
        · intro n t1 t2 herr
          obtain ⟨n2, t12, t22, hsh, hne, ⟨tE, htE, htEty⟩, ⟨eE, heE, heEty⟩, hnp⟩ :=
            mergeCommon_error_spec _ _ _ _ hmc
          rw [herr] at hsh
          rw [MergeErr.armMismatch.injEq] at hsh
          obtain ⟨he1, he2, he3⟩ := hsh
          subst he1
          subst he2
          subst he3
          have hnkeys : n ∉ liveins.map Prod.fst := by
            intro hin
            obtain ⟨⟨n3, lv⟩, hmemlv, heq⟩ := List.mem_map.mp hin
            have heq2 : n3 = n := heq
            have hmemlv2 : (n, lv) ∈ liveins := by
              rw [← heq2]
              exact hmemlv
            have hthen1 : n ∈ thenD1.map Prod.fst :=
              List.mem_map.mpr ⟨(n, tE), htE, rfl⟩
            exact hnp (mergeLiveins_livein_in_pairs _ _ _ _ _ hml hLive n lv hmemlv2
              (Or.inl hthen1))
          obtain ⟨hp1, hp2⟩ :=
            mergeLiveins_lookup_preserved _ _ _ _ _ hml n hnkeys
          obtain ⟨hnd1, hnd2⟩ :=
            mergeLiveins_defs_nodup _ _ _ _ _ hml hThen hElse
          refine ⟨hne, (lookup_none_iff_not_mem_keys _ _).mpr hnkeys, ?_, ?_⟩
          · refine ⟨tE, ?_, htEty⟩
            rw [← hp1]
            exact lookup_of_mem_nodup hnd1 htE
          · refine ⟨eE, ?_, heEty⟩
            rw [← hp2]
            exact heE

theorem c1_witness :
    visit_then_else_blocks_merge [("x", ⟨0, .fp32⟩)]
        [("x", ⟨1, .fp32⟩), ("y", ⟨2, .fp16⟩)] [("y", ⟨3, .fp16⟩)] =
      .ok ([("x", ⟨1, .fp32⟩), ("y", ⟨2, .fp16⟩)],
        [("y", ⟨3, .fp16⟩), ("x", ⟨0, .fp32⟩)],
        [("x", Ty.fp32), ("y", Ty.fp16)]) ∧
    (Ty.fp16 = Ty.fp16 ∧ ("y", Ty.fp16) ∈ [("x", Ty.fp32), ("y", Ty.fp16)] ∧
      ∃ v, List.lookup "y" (applyMergeScope [] [("x", Ty.fp32), ("y", Ty.fp16)] 7)
          = some v ∧ v.type = Ty.fp16) :=
  ⟨by rfl,
    ((c1_branch_type_merge [("x", ⟨0, .fp32⟩)]
        [("x", ⟨1, .fp32⟩), ("y", ⟨2, .fp16⟩)] [("y", ⟨3, .fp16⟩)] [] 7
        (by unfold NodupKeys; decide) (by unfold NodupKeys; decide)
        (by unfold NodupKeys; decide)).1
      [("x", ⟨1, .fp32⟩), ("y", ⟨2, .fp16⟩)]
      [("y", ⟨3, .fp16⟩), ("x", ⟨0, .fp32⟩)]
      [("x", Ty.fp32), ("y", Ty.fp16)] (by rfl)).2
      "y" ⟨2, .fp16⟩ ⟨3, .fp16⟩ (by decide) (by decide) (by decide)⟩
